import Mathlib

/-!
# GravelerC: the batch-claim protocol, the worker loop and the orchestrator

A shallow embedding of `GravelerC/GravelerC.cpp`.

* Machine integers.  `LONG64` values are integers in `[-2^63, 2^63)` and every
  `LONG64` operation of a claim wraps (`wrap64`): the machine claim is
  `claimBatch64`, and `workerIteration64`, `step64`, `run64` are the worker
  loop and the threads on it.  `claimBatch`, `workerIteration`, `step`, `run`
  read the same code on unbounded integers; `run64_eq_run` shows that the two
  readings coincide as long as `(threads + 1) * BatchSize ≤ 2^63`, and
  `counter_in_range` / `program_counter_fits` that this is so for the constants
  of `main`.  `BatchNumber` is a 32-bit `LONG` compared with the `LONG64`
  `CurrentBatch`: a batch above `LONG_MAX` never ends (`runBatch`).
* The only shared variable is `RemainingIterations`; it is touched by the
  interlocked add of a worker (one per loop iteration) and by the interlocked
  exchange of `main` that cancels the work.  A run of the threads is therefore
  a list of events, each executed atomically: `Event.claim i` is one iteration
  of the `while (TRUE)` loop of thread `i` (the claim and the thread-local batch
  that follows it) and `Event.cancel` is the exchange with `0`.
* `main` is the orchestrator against an arbitrary operating system: the values
  returned by `GetPhysicalProcessorCount`, `ctime_s`, `malloc`, `CreateThread` /
  `GetLastError` and `WaitForSingleObject` are inputs.  `program` is the same
  code run together with the threads it starts: a wait returns `STATUS_WAIT_0`
  when the awaited thread has returned and `WAIT_TIMEOUT` when it has not, and
  the result loop reads the slots the threads have written.
* The values returned by `Roll(Rand)` are an input of each thread.
* Fields and arguments marked "ghost" record history (granted sizes, trial
  outcomes, number of claims, number of slot writes); no branch reads them.
-/

namespace GravelerC

set_option maxRecDepth 100000

/-! ## Constants and helpers from the platform headers -/

/-- Value of `ERROR_SUCCESS` in the Windows SDK (winerror.h). -/
def ERROR_SUCCESS : Nat := 0

/-- Value of `ERROR_NOT_ENOUGH_MEMORY` in the Windows SDK (winerror.h). -/
def ERROR_NOT_ENOUGH_MEMORY : Nat := 8

/-- Value of `STATUS_WAIT_0` in the Windows SDK (winnt.h). -/
def STATUS_WAIT_0 : Nat := 0

/-- Value of `WAIT_TIMEOUT` in the Windows SDK (winerror.h). -/
def WAIT_TIMEOUT : Nat := 258

/-- The largest value of a 32-bit `LONG`. -/
def LONG_MAX : Int := 2147483647

/-- The `max(a,b)` of Windows.h, which expands to `(((a) > (b)) ? (a) : (b))`. -/
def winMax (a b : Int) : Int := if a > b then a else b

/-- The number of rolls of one attempt: `const ULONG Rolls = 231`. -/
def Rolls : Nat := 231

/-- The value a 64-bit two's complement register holds for the integer `x`. -/
def wrap64 (x : Int) : Int := (x + 2 ^ 63) % 2 ^ 64 - 2 ^ 63

/-! ## The worker thread -/

/-- Thread-local state of one `CalculationWorker`, with the slot
`Params->MaxOnesObserved` it owns. -/
structure Worker where
  /-- The value returned by the k-th call of `Roll(Rand)` in this thread. -/
  Roll : Nat → Nat
  /-- How many values this thread has drawn from its generator so far. -/
  drawn : Nat
  /-- The local `MaxSeenByThread`. -/
  MaxSeenByThread : Int
  /-- Whether the thread has reached the label `Exit`. -/
  exited : Bool
  /-- Whether the thread is inside a batch loop that cannot end (a batch above
  `LONG_MAX`); such a thread issues no further claim and never exits. -/
  spinning : Bool
  /-- The slot `ThreadParams[i].MaxOnesObserved` (zeroed by `main`). -/
  MaxOnesObserved : Int
  /-- Ghost: how many times the slot has been written. -/
  slotWrites : Nat
  /-- Ghost: `OnesThisAttempt` of every attempt of the batches that ended,
  oldest first. -/
  trials : List Int
  /-- Ghost: how many claims (interlocked adds) the thread has issued. -/
  claims : Nat

/-- A thread as `CreateThread` starts it: its slot was zeroed by `main`. -/
def Worker.start (Roll : Nat → Nat) : Worker :=
  { Roll := Roll, drawn := 0, MaxSeenByThread := 0, exited := false, spinning := false,
    MaxOnesObserved := 0, slotWrites := 0, trials := [], claims := 0 }

/-- The inner `for (RollNumber = 0; RollNumber < Rolls; ...)` loop with `n`
iterations left: returns the generator position and `OnesThisAttempt`. -/
def rollLoop (Roll : Nat → Nat) : Nat → Nat → Int → Nat × Int
  | 0, drawn, OnesThisAttempt => (drawn, OnesThisAttempt)
  | n + 1, drawn, OnesThisAttempt =>
      rollLoop Roll n (drawn + 1)
        (if Roll drawn = 1 then OnesThisAttempt + 1 else OnesThisAttempt)

/-- One attempt (the body of the `BatchNumber` loop): `OnesThisAttempt = 0`,
the rolls, then `MaxSeenByThread = max(OnesThisAttempt, MaxSeenByThread)`. -/
def runAttempt (w : Worker) : Worker :=
  let r := rollLoop w.Roll Rolls w.drawn 0
  { w with drawn := r.1, MaxSeenByThread := winMax r.2 w.MaxSeenByThread,
           trials := w.trials ++ [r.2] }

/-- The loop `for (BatchNumber = 0; BatchNumber < CurrentBatch; ...)` with `n`
iterations left, for a bound the `LONG` counter reaches. -/
def batchLoop : Nat → Worker → Worker
  | 0, w => w
  | n + 1, w => batchLoop n (runAttempt w)

/-- The batch of lines 488-507.  `BatchNumber` is a 32-bit `LONG` and
`CurrentBatch` a `LONG64`: for `CurrentBatch ≤ LONG_MAX` the loop runs
`CurrentBatch` attempts (none for a bound of zero or below); above that
`BatchNumber` stays below `CurrentBatch` whatever it counts, the loop does not
end and the thread never comes back to claim. -/
def runBatch (CurrentBatch : Int) (w : Worker) : Worker :=
  if CurrentBatch ≤ LONG_MAX then batchLoop CurrentBatch.toNat w
  else { w with spinning := true }

/-- One claim, lines 459-486 of `CalculationWorker`, on the machine: the
interlocked add of `0 - BatchSize` (which returns the new value of the counter)
and the three-way test on it, every `LONG64` operation wrapping.  Returns the
new counter and `CurrentBatch`, or `none` for `goto Exit`. -/
def claimBatch64 (BatchSize RemainingIterations : Int) : Int × Option Int :=
  let LocalReaminingIterations := wrap64 (RemainingIterations + wrap64 (0 - BatchSize))
  if wrap64 (LocalReaminingIterations + BatchSize) < 0 then
    (LocalReaminingIterations, none)
  else if LocalReaminingIterations ≤ 0 then
    (LocalReaminingIterations, some (wrap64 (LocalReaminingIterations + BatchSize)))
  else
    (LocalReaminingIterations, some BatchSize)

/-- The claim of lines 459-486 read on unbounded integers (no wrap-around). -/
def claimBatch (BatchSize RemainingIterations : Int) : Int × Option Int :=
  let LocalReaminingIterations := RemainingIterations + (0 - BatchSize)
  if LocalReaminingIterations + BatchSize < 0 then
    (LocalReaminingIterations, none)
  else if LocalReaminingIterations ≤ 0 then
    (LocalReaminingIterations, some (LocalReaminingIterations + BatchSize))
  else
    (LocalReaminingIterations, some BatchSize)

/-- The size a claim grants: `CurrentBatch`, and nothing on `goto Exit`. -/
def grantedSize : Option Int → Int
  | none => 0
  | some CurrentBatch => CurrentBatch

/-- The rest of one iteration of the `while (TRUE)` loop once the claim has
given `c`: the exit path (`Params->MaxOnesObserved = MaxSeenByThread`) or the
batch.  Returns the new counter, the thread and the granted size. -/
def afterClaim (w : Worker) (c : Int × Option Int) : Int × Worker × Int :=
  match c.2 with
  | none =>
      (c.1, { w with exited := true, MaxOnesObserved := w.MaxSeenByThread,
                     slotWrites := w.slotWrites + 1, claims := w.claims + 1 }, 0)
  | some CurrentBatch =>
      (c.1, runBatch CurrentBatch { w with claims := w.claims + 1 }, CurrentBatch)

/-- One iteration of the `while (TRUE)` loop of `CalculationWorker` on the
machine, on a counter holding `RemainingIterations`. -/
def workerIteration64 (BatchSize RemainingIterations : Int) (w : Worker) :
    Int × Worker × Int :=
  afterClaim w (claimBatch64 BatchSize RemainingIterations)

/-- One iteration of the `while (TRUE)` loop of `CalculationWorker` with the
claim read on unbounded integers. -/
def workerIteration (BatchSize RemainingIterations : Int) (w : Worker) :
    Int × Worker × Int :=
  afterClaim w (claimBatch BatchSize RemainingIterations)

/-! ## The threads running together -/

/-- The shared counter and the threads. -/
structure System where
  /-- The global `RemainingIterations`. -/
  RemainingIterations : Int
  /-- The worker threads, by thread index. -/
  threads : List Worker
  /-- Ghost: the size granted by every claim, in the order of the interlocked
  adds, oldest first. -/
  granted : List Int

/-- An atomic action on the shared counter. -/
inductive Event where
  /-- Thread `i` runs one iteration of its claim loop. -/
  | claim (i : Nat)
  /-- The `InterlockedExchange64(&RemainingIterations, 0)` of `main`. -/
  | cancel
deriving DecidableEq

/-- Executes one event, `claimOn` being the claim on a counter value.  A thread
that has exited, is inside a batch that cannot end, or does not exist issues no
claim. -/
def stepWith (claimOn : Int → Int × Option Int) (s : System) : Event → System
  | Event.cancel => { s with RemainingIterations := 0 }
  | Event.claim i =>
      match s.threads[i]? with
      | none => s
      | some w =>
          if w.exited || w.spinning then s
          else
            let r := afterClaim w (claimOn s.RemainingIterations)
            { RemainingIterations := r.1, threads := s.threads.set i r.2.1,
              granted := s.granted ++ [r.2.2] }

/-- Executes one event on the machine. -/
def step64 (BatchSize : Int) (s : System) (e : Event) : System :=
  stepWith (claimBatch64 BatchSize) s e

/-- Executes one event with the claim read on unbounded integers. -/
def step (BatchSize : Int) (s : System) (e : Event) : System :=
  stepWith (claimBatch BatchSize) s e

/-- Executes a list of events in order. -/
def runWith (claimOn : Int → Int × Option Int) (s : System) (es : List Event) : System :=
  es.foldl (stepWith claimOn) s

/-- Executes a list of events in order on the machine. -/
def run64 (BatchSize : Int) (s : System) (es : List Event) : System :=
  runWith (claimBatch64 BatchSize) s es

/-- Executes a list of events in order with the claim read on unbounded
integers. -/
def run (BatchSize : Int) (s : System) (es : List Event) : System :=
  runWith (claimBatch BatchSize) s es

/-- The state after `InterlockedExchange64(&RemainingIterations, TotalIterations)`
with `n` threads, thread `i` drawing its rolls from `Roll i`. -/
def initial (TotalIterations : Int) (Roll : Nat → Nat → Nat) (n : Nat) : System :=
  { RemainingIterations := TotalIterations,
    threads := (List.range n).map (fun i => Worker.start (Roll i)),
    granted := [] }

/-- A schedule without cancellation: thread indices in the order of their
claims. -/
def claimsOf (order : List Nat) : List Event := order.map Event.claim

/-- The run of `n` threads on a counter started at `T`, without cancellation,
on the machine. -/
def claimRun64 (b T : Int) (Roll : Nat → Nat → Nat) (n : Nat) (order : List Nat) : System :=
  run64 b (initial T Roll n) (claimsOf order)

/-- The run of `n` threads on a counter started at `T`, without cancellation,
with the claim read on unbounded integers. -/
def claimRun (b T : Int) (Roll : Nat → Nat → Nat) (n : Nat) (order : List Nat) : System :=
  run b (initial T Roll n) (claimsOf order)

/-! ## The orchestrator `main` -/

/-- What one call of `CreateThread` gives back: a handle, or `NULL` together
with the code `GetLastError` then reports. -/
inductive ThreadStart where
  | started
  | failed (lastError : Nat)

/-- Everything `main` obtains from the operating system. -/
structure Environment where
  /-- The error returned by `GetPhysicalProcessorCount` and the count it wrote. -/
  processorQuery : Nat × Nat
  /-- The result of the `ctime_s` call made before the threads are started. -/
  TimeFormatResult : Nat
  /-- Whether `malloc` returned a buffer for `ThreadHandles`. -/
  handlesAllocated : Bool
  /-- Whether `malloc` returned a buffer for `ThreadParams`. -/
  paramsAllocated : Bool
  /-- The outcome of `CreateThread` for each thread index. -/
  CreateThread : Nat → ThreadStart
  /-- The value returned by the k-th call of `WaitForSingleObject`. -/
  WaitForSingleObject : Nat → Nat

/-- What `main` leaves behind when it returns. -/
structure Report where
  /-- The value of `return Error`. -/
  status : Nat
  /-- The value printed after "The final result is", when that line is reached. -/
  final : Option Int
  /-- Ghost: how many threads `CreateThread` started. -/
  started : Nat
  /-- Ghost: whether the work was cancelled (the exchange with `0`). -/
  cancelled : Bool
deriving DecidableEq

/-- How a run of `main` ends. -/
inductive Outcome where
  /-- Reached `return Error`. -/
  | returned (r : Report)
  /-- Stopped in `assert(!"Invald result while waiting for thread exit")`. -/
  | assertFailed
  /-- Still inside the wait loop when the fuel ran out. -/
  | waiting
deriving DecidableEq

/-- The variables the thread-start loop leaves behind. -/
structure Launch where
  /-- For each index, whether `ThreadHandles[i]` is a handle (not `NULL`). -/
  ThreadHandles : List Bool
  ThreadStartError : Bool
  Error : Nat
  /-- Ghost: whether `InterlockedExchange64(&RemainingIterations, 0)` ran. -/
  cancelled : Bool

/-- The loop of lines 164-199 with `n` indices left to visit. -/
def launchLoop (CreateThread : Nat → ThreadStart) :
    Nat → Nat → List Bool → Bool → Nat → Launch
  | 0, _, ThreadHandles, ThreadStartError, Error =>
      { ThreadHandles := ThreadHandles, ThreadStartError := ThreadStartError,
        Error := Error, cancelled := false }
  | n + 1, ThreadIndex, ThreadHandles, _, Error =>
      match CreateThread ThreadIndex with
      | ThreadStart.started =>
          launchLoop CreateThread n (ThreadIndex + 1)
            (ThreadHandles.set ThreadIndex true) false Error
      | ThreadStart.failed lastError =>
          { ThreadHandles := ThreadHandles.set ThreadIndex false,
            ThreadStartError := true, Error := lastError, cancelled := true }

/-- How the wait loop of lines 205-282 ends. -/
inductive PollEnd where
  /-- Left through `break` with this value in `Error`. -/
  | finished (Error : Nat)
  | assertFailed
  | waiting
deriving DecidableEq

/-- The `while (TRUE)` wait loop: `fuel` bounds the number of iterations,
`calls` counts the calls of `WaitForSingleObject` made so far. -/
def pollLoop (WaitForSingleObject : Nat → Nat) (ProcessorCoreCount : Nat)
    (ThreadHandles : List Bool) : Nat → Nat → Nat → Nat → PollEnd
  | 0, _, _, _ => PollEnd.waiting
  | fuel + 1, ThreadIndex, calls, Error =>
      if ThreadIndex = ProcessorCoreCount then PollEnd.finished Error
      else if !(ThreadHandles.getD ThreadIndex false) then
        pollLoop WaitForSingleObject ProcessorCoreCount ThreadHandles fuel
          (ThreadIndex + 1) calls Error
      else
        let Error := WaitForSingleObject calls
        if Error = STATUS_WAIT_0 then
          pollLoop WaitForSingleObject ProcessorCoreCount ThreadHandles fuel
            (ThreadIndex + 1) (calls + 1) Error
        else if Error = WAIT_TIMEOUT then
          pollLoop WaitForSingleObject ProcessorCoreCount ThreadHandles fuel
            ThreadIndex (calls + 1) Error
        else PollEnd.assertFailed

/-- The loop of lines 301-303 with `n` indices left:
`Result = max(ThreadParams[ThreadIndex].MaxOnesObserved, Result)`. -/
def aggregateLoop (ThreadParams : List Int) : Nat → Nat → Int → Int
  | 0, _, Result => Result
  | n + 1, ThreadIndex, Result =>
      aggregateLoop ThreadParams n (ThreadIndex + 1)
        (winMax (ThreadParams.getD ThreadIndex 0) Result)

/-- The function `main`.  `ThreadParams` holds the slots
`ThreadParams[i].MaxOnesObserved` as the threads have left them when the
result loop reads them; `fuel` bounds the iterations of the wait loop. -/
def main (env : Environment) (fuel : Nat) (ThreadParams : List Int) : Outcome :=
  let Error := env.processorQuery.1
  let ProcessorCoreCount := env.processorQuery.2
  if Error ≠ ERROR_SUCCESS then
    Outcome.returned { status := Error, final := none, started := 0, cancelled := false }
  else if env.TimeFormatResult ≠ 0 then
    Outcome.returned { status := env.TimeFormatResult, final := none, started := 0,
                       cancelled := false }
  else if !env.handlesAllocated then
    Outcome.returned { status := ERROR_NOT_ENOUGH_MEMORY, final := none, started := 0,
                       cancelled := false }
  else if !env.paramsAllocated then
    Outcome.returned { status := Error, final := none, started := 0, cancelled := false }
  else
    let l := launchLoop env.CreateThread ProcessorCoreCount 0
      (List.replicate ProcessorCoreCount false) false Error
    match pollLoop env.WaitForSingleObject ProcessorCoreCount l.ThreadHandles fuel 0 0
        l.Error with
    | PollEnd.waiting => Outcome.waiting
    | PollEnd.assertFailed => Outcome.assertFailed
    | PollEnd.finished Error =>
        if l.ThreadStartError then
          Outcome.returned { status := Error, final := none,
                             started := l.ThreadHandles.count true,
                             cancelled := l.cancelled }
        else
          Outcome.returned { status := ERROR_SUCCESS,
                             final := some (aggregateLoop ThreadParams ProcessorCoreCount 0 0),
                             started := l.ThreadHandles.count true,
                             cancelled := l.cancelled }

/-! ## `main` together with its threads -/

/-- What `WaitForSingleObject` returns for the handle of thread `ThreadIndex`
when the threads are in state `s`: `STATUS_WAIT_0` if the thread has returned
from `CalculationWorker`, `WAIT_TIMEOUT` if it has not. -/
def waitOutcome (s : System) (ThreadIndex : Nat) : Nat :=
  match s.threads[ThreadIndex]? with
  | some w => if w.exited then STATUS_WAIT_0 else WAIT_TIMEOUT
  | none => WAIT_TIMEOUT

/-- The loop of lines 164-199 with `n` indices left, run with the threads:
`before i` lists the claims the threads already started make before the call
of `CreateThread` for index `i`; a successful call adds thread `i`, a failed
one cancels the work. -/
def launchThreads (BatchSize : Int) (CreateThread : Nat → ThreadStart)
    (Roll : Nat → Nat → Nat) (before : Nat → List Nat) :
    Nat → Nat → List Bool → Bool → Nat → System → Launch × System
  | 0, _, ThreadHandles, ThreadStartError, Error, s =>
      ({ ThreadHandles := ThreadHandles, ThreadStartError := ThreadStartError,
         Error := Error, cancelled := false }, s)
  | n + 1, ThreadIndex, ThreadHandles, _, Error, s =>
      match CreateThread ThreadIndex with
      | ThreadStart.started =>
          launchThreads BatchSize CreateThread Roll before n (ThreadIndex + 1)
            (ThreadHandles.set ThreadIndex true) false Error
            { run64 BatchSize s (claimsOf (before ThreadIndex)) with
              threads := (run64 BatchSize s (claimsOf (before ThreadIndex))).threads ++
                [Worker.start (Roll ThreadIndex)] }
      | ThreadStart.failed lastError =>
          ({ ThreadHandles := ThreadHandles.set ThreadIndex false,
             ThreadStartError := true, Error := lastError, cancelled := true },
           step64 BatchSize (run64 BatchSize s (claimsOf (before ThreadIndex))) Event.cancel)

/-- The `while (TRUE)` wait loop of lines 205-282 run with the threads:
`during c` lists the claims the threads make while call number `c` of
`WaitForSingleObject` is waiting.  Returns how the loop ends, the state of the
threads and the values the waits returned, in order. -/
def pollThreads (BatchSize : Int) (ProcessorCoreCount : Nat) (ThreadHandles : List Bool)
    (during : Nat → List Nat) : Nat → Nat → Nat → Nat → System → PollEnd × System × List Nat
  | 0, _, _, _, s => (PollEnd.waiting, s, [])
  | fuel + 1, ThreadIndex, calls, Error, s =>
      if ThreadIndex = ProcessorCoreCount then (PollEnd.finished Error, s, [])
      else if !(ThreadHandles.getD ThreadIndex false) then
        pollThreads BatchSize ProcessorCoreCount ThreadHandles during fuel
          (ThreadIndex + 1) calls Error s
      else
        let s1 := run64 BatchSize s (claimsOf (during calls))
        let Error := waitOutcome s1 ThreadIndex
        if Error = STATUS_WAIT_0 then
          let r := pollThreads BatchSize ProcessorCoreCount ThreadHandles during fuel
            (ThreadIndex + 1) (calls + 1) Error s1
          (r.1, r.2.1, Error :: r.2.2)
        else if Error = WAIT_TIMEOUT then
          let r := pollThreads BatchSize ProcessorCoreCount ThreadHandles during fuel
            ThreadIndex (calls + 1) Error s1
          (r.1, r.2.1, Error :: r.2.2)
        else (PollEnd.assertFailed, s1, [Error])

/-- The function `main` run with the threads it starts, on a counter of
`TotalIterations` with batches of `BatchSize`.  Returns how `main` ends and the
state of the threads at that point; the result loop reads the slots of that
state. -/
def program (env : Environment) (BatchSize TotalIterations : Int) (Roll : Nat → Nat → Nat)
    (before during : Nat → List Nat) (fuel : Nat) : Outcome × System :=
  let Error := env.processorQuery.1
  let ProcessorCoreCount := env.processorQuery.2
  let s0 := initial TotalIterations Roll 0
  if Error ≠ ERROR_SUCCESS then
    (Outcome.returned { status := Error, final := none, started := 0, cancelled := false }, s0)
  else if env.TimeFormatResult ≠ 0 then
    (Outcome.returned { status := env.TimeFormatResult, final := none, started := 0,
                        cancelled := false }, s0)
  else if !env.handlesAllocated then
    (Outcome.returned { status := ERROR_NOT_ENOUGH_MEMORY, final := none, started := 0,
                        cancelled := false }, s0)
  else if !env.paramsAllocated then
    (Outcome.returned { status := Error, final := none, started := 0, cancelled := false }, s0)
  else
    let l := launchThreads BatchSize env.CreateThread Roll before ProcessorCoreCount 0
      (List.replicate ProcessorCoreCount false) false Error s0
    let p := pollThreads BatchSize ProcessorCoreCount l.1.ThreadHandles during fuel 0 0
      l.1.Error l.2
    match p.1 with
    | PollEnd.waiting => (Outcome.waiting, p.2.1)
    | PollEnd.assertFailed => (Outcome.assertFailed, p.2.1)
    | PollEnd.finished Error =>
        if l.1.ThreadStartError then
          (Outcome.returned { status := Error, final := none,
                              started := l.1.ThreadHandles.count true,
                              cancelled := l.1.cancelled }, p.2.1)
        else
          (Outcome.returned
            { status := ERROR_SUCCESS,
              final := some (aggregateLoop (p.2.1.threads.map Worker.MaxOnesObserved)
                ProcessorCoreCount 0 0),
              started := l.1.ThreadHandles.count true,
              cancelled := l.1.cancelled }, p.2.1)

/-- The values the calls of `WaitForSingleObject` return, in order, in the run
of `main` with its threads. -/
def programWaits (env : Environment) (BatchSize TotalIterations : Int)
    (Roll : Nat → Nat → Nat) (before during : Nat → List Nat) (fuel : Nat) : List Nat :=
  let l := launchThreads BatchSize env.CreateThread Roll before env.processorQuery.2 0
    (List.replicate env.processorQuery.2 false) false env.processorQuery.1
    (initial TotalIterations Roll 0)
  (pollThreads BatchSize env.processorQuery.2 l.1.ThreadHandles during fuel 0 0
    l.1.Error l.2).2.2

/-! ## Notions used in the statements -/

/-- The size granted to claim number `j` (from 0) on a counter started at `T`. -/
def grantAt (b T : Int) (j : Nat) : Int :=
  grantedSize (claimBatch b (T - (j : Int) * b)).2

/-- Without cancellation the counter and the granted sizes depend only on how
many claims were made since the counter held `T` and the granted sizes were
`g`. -/
def Linear (b T : Int) (g : List Int) (s : System) : Prop :=
  ∃ k : Nat, s.RemainingIterations = T - (k : Int) * b ∧
    s.granted = g ++ (List.range k).map (grantAt b T)

/-- Without cancellation, a thread that has exited has seen a negative counter
before its last claim, and the counter has only gone down since. -/
def ExitedNegative (b : Int) (s : System) : Prop :=
  (∃ w ∈ s.threads, w.exited = true) → s.RemainingIterations + b < 0

/-- The number of threads that have reached `Exit`. -/
def exitedCount (s : System) : Nat := s.threads.countP (fun w => w.exited)

/-- The counter is at least `-(exited threads + 1) * b`. -/
def Floor (b : Int) (s : System) : Prop :=
  -(((exitedCount s : Int) + 1) * b) ≤ s.RemainingIterations

/-- A state of `n` threads whose counter lies between `m - (exited threads + 1) * b`
and `U`. -/
def Bounded (b : Int) (n : Nat) (m U : Int) (s : System) : Prop :=
  s.threads.length = n ∧ m - ((exitedCount s : Int) + 1) * b ≤ s.RemainingIterations ∧
  s.RemainingIterations ≤ U

/-- The bounds within which no claim of `n` threads wraps: the batch size is a
positive `LONG64`, and the counter, kept between `m - (n + 1) * b` and `U`,
stays a `LONG64`. -/
def Fits (b : Int) (n : Nat) (m U : Int) : Prop :=
  0 < b ∧ b < 2 ^ 63 ∧ m ≤ 0 ∧ 0 ≤ U ∧ U < 2 ^ 63 ∧ -2 ^ 63 ≤ m - ((n : Int) + 1) * b

/-- How many claims can still read a counter value of at least zero when the
counter holds `r` and nobody raises it: `r / b + 1` for `r ≥ 0`. -/
def budget (b r : Int) : Nat := if r < 0 then 0 else (r / b).toNat + 1

/-- A bound on the claims thread `i` can still make: those it has made, and if
it is still running the claims that can read a value of at least zero plus the
one on which it exits. -/
def pot (b : Int) (i : Nat) (s : System) : Nat :=
  match s.threads[i]? with
  | none => 0
  | some w => w.claims + (if w.exited then 0 else budget b s.RemainingIterations + 1)

/-- What the running maximum of a thread is to the attempts it has run: every
outcome is a count between 0 and `Rolls`, `MaxSeenByThread` is the largest
outcome (0 before the first attempt), and an exited thread has stored it in its
slot. -/
def TrialsMax (w : Worker) : Prop :=
  (∀ x ∈ w.trials, 0 ≤ x ∧ x ≤ (Rolls : Int) ∧ x ≤ w.MaxSeenByThread) ∧
  (w.MaxSeenByThread ∈ w.trials ∨ (w.trials = [] ∧ w.MaxSeenByThread = 0)) ∧
  (w.exited = true → w.MaxOnesObserved = w.MaxSeenByThread)

/-- Thread `i` of `s` has reached `Exit`. -/
def ExitedAt (s : System) (i : Nat) : Prop :=
  ∃ w, s.threads[i]? = some w ∧ w.exited = true

/-! ## Concrete environments -/

/-- The environment of a run on two cores in which everything succeeds and each
wait finds its thread finished. -/
def twoCores : Environment :=
  { processorQuery := (ERROR_SUCCESS, 2), TimeFormatResult := 0, handlesAllocated := true,
    paramsAllocated := true, CreateThread := fun _ => ThreadStart.started,
    WaitForSingleObject := fun _ => STATUS_WAIT_0 }

/-- An environment with `n` cores in which the early checks pass, `CreateThread`
fails first for index `k` with last error `e`, and every wait finds its thread
finished. -/
def launchFailure (n k e : Nat) : Environment :=
  { processorQuery := (ERROR_SUCCESS, n), TimeFormatResult := 0, handlesAllocated := true,
    paramsAllocated := true,
    CreateThread := fun i => if i = k then ThreadStart.failed e else ThreadStart.started,
    WaitForSingleObject := fun _ => STATUS_WAIT_0 }

/-- An environment with `n` cores in which the buffer for `ThreadHandles` is
allocated and the one for `ThreadParams` is not. -/
def paramsAllocationFailure (n : Nat) : Environment :=
  { processorQuery := (ERROR_SUCCESS, n), TimeFormatResult := 0, handlesAllocated := true,
    paramsAllocated := false, CreateThread := fun _ => ThreadStart.started,
    WaitForSingleObject := fun _ => STATUS_WAIT_0 }

/-! ## One claim -/

theorem claimBatch_fst (b r : Int) : (claimBatch b r).1 = r - b := by
  unfold claimBatch
  simp only []
  split_ifs <;> simp <;> omega

theorem claimBatch_snd_neg (b r : Int) (hr : r < 0) : (claimBatch b r).2 = none := by
  unfold claimBatch
  simp only []
  split_ifs with h1 h2
  · rfl
  · omega
  · omega

theorem claimBatch_snd_last (b r : Int) (h0 : 0 ≤ r) (hb : r ≤ b) :
    (claimBatch b r).2 = some r := by
  unfold claimBatch
  simp only []
  split_ifs with h1 h2
  · omega
  · simp
  · omega

theorem claimBatch_snd_full (b r : Int) (h0 : 0 ≤ r) (hb : b < r) :
    (claimBatch b r).2 = some b := by
  unfold claimBatch
  simp only []
  split_ifs with h1 h2
  · omega
  · omega
  · rfl

theorem grantedSize_claimBatch (b r : Int) (hb : 0 < b) :
    grantedSize (claimBatch b r).2 = max 0 (min r b) := by
  rcases lt_or_le r 0 with h | h
  · rw [claimBatch_snd_neg b r h]
    simp only [grantedSize]
    omega
  · rcases le_or_lt r b with h2 | h2
    · rw [claimBatch_snd_last b r h h2]
      simp only [grantedSize]
      omega
    · rw [claimBatch_snd_full b r h h2]
      simp only [grantedSize]
      omega

theorem claimBatch_snd_none_iff (b r : Int) : (claimBatch b r).2 = none ↔ r < 0 := by
  constructor
  · intro h
    by_contra hr
    rcases le_or_lt r b with h2 | h2
    · rw [claimBatch_snd_last b r (not_lt.1 hr) h2] at h
      exact absurd h (by simp)
    · rw [claimBatch_snd_full b r (not_lt.1 hr) h2] at h
      exact absurd h (by simp)
  · exact claimBatch_snd_neg b r

theorem wrap64_id (x : Int) (h1 : -2 ^ 63 ≤ x) (h2 : x < 2 ^ 63) : wrap64 x = x := by
  unfold wrap64
  omega

theorem wrap64_range (x : Int) : -2 ^ 63 ≤ wrap64 x ∧ wrap64 x < 2 ^ 63 := by
  unfold wrap64
  omega

/-- On `LONG64` values the machine claim takes the same branch and grants the
same size as the claim on integers, whether or not the subtraction wraps. -/
theorem claimBatch64_snd (b r : Int) (hb : 0 < b) (hb2 : b < 2 ^ 63)
    (hr1 : -2 ^ 63 ≤ r) (hr2 : r < 2 ^ 63) : (claimBatch64 b r).2 = (claimBatch b r).2 := by
  have h1 : wrap64 (0 - b) = 0 - b := wrap64_id _ (by omega) (by omega)
  have h4 : wrap64 (wrap64 (r + (0 - b)) + b) = r := by
    unfold wrap64
    omega
  rcases lt_or_le r 0 with h | h
  · rw [claimBatch_snd_neg b r h]
    unfold claimBatch64
    simp only [h1, h4, if_pos h]
  · have h2 : wrap64 (r + (0 - b)) = r + (0 - b) := wrap64_id _ (by omega) (by omega)
    have h3 : wrap64 (r + (0 - b) + b) = r + (0 - b) + b := wrap64_id _ (by omega) (by omega)
    unfold claimBatch64 claimBatch
    simp only [h1, h2, h3]

/-- The counter the machine claim leaves: `r - b`, wrapped. -/
theorem claimBatch64_fst (b r : Int) (hb : 0 < b) (hb2 : b < 2 ^ 63) :
    (claimBatch64 b r).1 = wrap64 (r - b) := by
  have h1 : wrap64 (0 - b) = 0 - b := wrap64_id _ (by omega) (by omega)
  have h2 : r + (0 - b) = r - b := by ring
  unfold claimBatch64
  simp only [h1, h2]
  split_ifs <;> rfl

/-- As long as the counter, the batch size and their difference fit in 64 bits,
the wrapping claim is the claim on integers. -/
theorem claimBatch64_eq_claimBatch (b r : Int) (hb : 0 < b) (hb2 : b < 2 ^ 63)
    (hr : r < 2 ^ 63) (hrb : -2 ^ 63 ≤ r - b) : claimBatch64 b r = claimBatch b r := by
  unfold claimBatch64 claimBatch
  have h1 : wrap64 (0 - b) = 0 - b := wrap64_id _ (by omega) (by omega)
  have h2 : wrap64 (r + (0 - b)) = r + (0 - b) := wrap64_id _ (by omega) (by omega)
  have h3 : wrap64 (r + (0 - b) + b) = r + (0 - b) + b := wrap64_id _ (by omega) (by omega)
  simp only [h1, h2, h3]

/-- Witness (claimBatch64 equals claimBatch): the first claim of the program. -/
theorem claimBatch64_eq_claimBatch_witness :
    claimBatch64 1000 1000000000 = claimBatch 1000 1000000000 :=
  claimBatch64_eq_claimBatch 1000 1000000000 (by decide) (by decide) (by decide) (by decide)

/-! ## Thread-local facts -/

theorem batchLoop_exited (n : Nat) (w : Worker) : (batchLoop n w).exited = w.exited := by
  induction n generalizing w with
  | zero => rfl
  | succ n ih => rw [batchLoop, ih]; rfl

theorem batchLoop_spinning (n : Nat) (w : Worker) :
    (batchLoop n w).spinning = w.spinning := by
  induction n generalizing w with
  | zero => rfl
  | succ n ih => rw [batchLoop, ih]; rfl

theorem batchLoop_claims (n : Nat) (w : Worker) : (batchLoop n w).claims = w.claims := by
  induction n generalizing w with
  | zero => rfl
  | succ n ih => rw [batchLoop, ih]; rfl

theorem batchLoop_trials_length (n : Nat) (w : Worker) :
    (batchLoop n w).trials.length = w.trials.length + n := by
  induction n generalizing w with
  | zero => rfl
  | succ n ih =>
      rw [batchLoop, ih]
      simp only [runAttempt, List.length_append, List.length_singleton]
      omega

theorem runBatch_exited (g : Int) (w : Worker) : (runBatch g w).exited = w.exited := by
  unfold runBatch
  split_ifs
  · exact batchLoop_exited _ w
  · rfl

theorem runBatch_claims (g : Int) (w : Worker) : (runBatch g w).claims = w.claims := by
  unfold runBatch
  split_ifs
  · exact batchLoop_claims _ w
  · rfl

theorem runBatch_spinning (g : Int) (w : Worker) (hw : w.spinning = false) :
    (runBatch g w).spinning = true ↔ LONG_MAX < g := by
  unfold runBatch
  split_ifs with h
  · rw [batchLoop_spinning, hw]
    constructor
    · intro h2; exact absurd h2 (by decide)
    · intro h2; omega
  · constructor
    · intro _; omega
    · intro _; rfl

theorem afterClaim_counter (w : Worker) (c : Int × Option Int) : (afterClaim w c).1 = c.1 := by
  unfold afterClaim
  split <;> rfl

theorem afterClaim_granted (w : Worker) (c : Int × Option Int) :
    (afterClaim w c).2.2 = grantedSize c.2 := by
  unfold afterClaim
  split <;> rename_i h <;> rw [h] <;> rfl

theorem afterClaim_exited (w : Worker) (c : Int × Option Int) (hw : w.exited = false) :
    (afterClaim w c).2.1.exited = true ↔ c.2 = none := by
  unfold afterClaim
  split
  · rename_i h; simp [h]
  · rename_i g h
    simp only [runBatch_exited, hw, h]
    simp

theorem afterClaim_not_exited (w : Worker) (c : Int × Option Int) (hw : w.exited = false)
    (hc : c.2 ≠ none) : (afterClaim w c).2.1.exited = false := by
  cases h : (afterClaim w c).2.1.exited with
  | false => rfl
  | true => exact absurd ((afterClaim_exited w c hw).1 h) hc

theorem afterClaim_claims (w : Worker) (c : Int × Option Int) :
    (afterClaim w c).2.1.claims = w.claims + 1 := by
  unfold afterClaim
  split
  · rfl
  · simp only [runBatch_claims]

theorem afterClaim_none (w : Worker) (c : Int × Option Int) (hc : c.2 = none) :
    (afterClaim w c).2.1 =
      { w with exited := true, MaxOnesObserved := w.MaxSeenByThread,
               slotWrites := w.slotWrites + 1, claims := w.claims + 1 } := by
  simp only [afterClaim, hc]

theorem afterClaim_some (w : Worker) (c : Int × Option Int) (g : Int) (hc : c.2 = some g) :
    (afterClaim w c).2.1 = runBatch g { w with claims := w.claims + 1 } := by
  simp only [afterClaim, hc]

/-- A thread starts to spin exactly when it is granted more than `LONG_MAX`. -/
theorem afterClaim_spinning (w : Worker) (c : Int × Option Int) (hw : w.spinning = false) :
    (afterClaim w c).2.1.spinning = true ↔ LONG_MAX < grantedSize c.2 := by
  cases hc : c.2 with
  | none =>
      rw [afterClaim_none w c hc]
      simp only [grantedSize, hw, LONG_MAX]
      constructor
      · intro h; exact absurd h (by decide)
      · intro h; omega
  | some g =>
      rw [afterClaim_some w c g hc]
      simp only [grantedSize]
      exact runBatch_spinning g _ hw

theorem afterClaim_not_spinning (w : Worker) (c : Int × Option Int) (hw : w.spinning = false)
    (hc : grantedSize c.2 ≤ LONG_MAX) : (afterClaim w c).2.1.spinning = false := by
  cases h : (afterClaim w c).2.1.spinning with
  | false => rfl
  | true =>
      have := (afterClaim_spinning w c hw).1 h
      omega

/-- The attempts a claim triggers are as many as the size it grants, when the
batch counter can count that far. -/
theorem afterClaim_trials_length (w : Worker) (c : Int × Option Int)
    (h0 : 0 ≤ grantedSize c.2) (h1 : grantedSize c.2 ≤ LONG_MAX) :
    ((afterClaim w c).2.1.trials.length : Int) = w.trials.length + grantedSize c.2 := by
  cases hc : c.2 with
  | none =>
      rw [afterClaim_none w c hc]
      simp [grantedSize]
  | some g =>
      rw [hc] at h0 h1
      simp only [grantedSize] at h0 h1
      rw [afterClaim_some w c g hc]
      simp only [runBatch, if_pos h1, batchLoop_trials_length, grantedSize]
      push_cast
      rw [Int.toNat_of_nonneg h0]

theorem afterClaim_trials_nonpos (w : Worker) (c : Int × Option Int)
    (h0 : grantedSize c.2 ≤ 0) : (afterClaim w c).2.1.trials = w.trials := by
  cases hc : c.2 with
  | none => rw [afterClaim_none w c hc]
  | some g =>
      rw [hc] at h0
      simp only [grantedSize] at h0
      rw [afterClaim_some w c g hc]
      have h1 : g ≤ LONG_MAX := by unfold LONG_MAX; omega
      have h2 : g.toNat = 0 := by omega
      simp only [runBatch, if_pos h1, h2]
      rfl

theorem workerIteration_counter (b r : Int) (w : Worker) :
    (workerIteration b r w).1 = r - b := by
  rw [workerIteration, afterClaim_counter, claimBatch_fst]

theorem workerIteration_granted (b r : Int) (w : Worker) :
    (workerIteration b r w).2.2 = grantedSize (claimBatch b r).2 := by
  rw [workerIteration, afterClaim_granted]

theorem workerIteration_exited (b r : Int) (w : Worker) (hw : w.exited = false) :
    (workerIteration b r w).2.1.exited = true ↔ r < 0 := by
  rw [workerIteration, afterClaim_exited w _ hw, claimBatch_snd_none_iff]

theorem workerIteration_claims (b r : Int) (w : Worker) :
    (workerIteration b r w).2.1.claims = w.claims + 1 := by
  rw [workerIteration, afterClaim_claims]

theorem workerIteration_not_spinning (b r : Int) (w : Worker) (hb : 0 < b)
    (hb32 : b ≤ LONG_MAX) (hw : w.spinning = false) :
    (workerIteration b r w).2.1.spinning = false := by
  rw [workerIteration]
  apply afterClaim_not_spinning w _ hw
  rw [grantedSize_claimBatch b r hb]
  omega

theorem workerIteration_trials_nonpos (b r : Int) (w : Worker) (hb : 0 < b) (hr : r ≤ 0) :
    (workerIteration b r w).2.1.trials = w.trials := by
  rw [workerIteration]
  apply afterClaim_trials_nonpos
  rw [grantedSize_claimBatch b r hb]
  omega

/-! ## Runs of the threads -/

theorem runWith_nil (cl : Int → Int × Option Int) (s : System) : runWith cl s [] = s := rfl

theorem runWith_cons (cl : Int → Int × Option Int) (s : System) (e : Event)
    (es : List Event) : runWith cl s (e :: es) = runWith cl (stepWith cl s e) es := rfl

theorem runWith_append (cl : Int → Int × Option Int) (s : System) (es fs : List Event) :
    runWith cl s (es ++ fs) = runWith cl (runWith cl s es) fs := by
  simp only [runWith, List.foldl_append]

/-- Induction along a run: a property that holds at the start and survives every
event of the schedule holds at the end. -/
theorem runWith_induction (cl : Int → Int × Option Int) (P : System → Prop)
    (es : List Event) (s : System)
    (h0 : P s) (hstep : ∀ t e, e ∈ es → P t → P (stepWith cl t e)) : P (runWith cl s es) := by
  induction es generalizing s with
  | nil => exact h0
  | cons e es ih =>
      rw [runWith_cons]
      apply ih
      · exact hstep s e (List.mem_cons_self e es) h0
      · intro t f hf ht
        exact hstep t f (List.mem_cons_of_mem e hf) ht

/-- A claim event either changes nothing (no such thread, or it has exited or
spins) or is one loop iteration of a running thread. -/
theorem stepWith_claim_cases (cl : Int → Int × Option Int) (s : System) (i : Nat) :
    stepWith cl s (Event.claim i) = s ∨
    ∃ w, s.threads[i]? = some w ∧ w.exited = false ∧ w.spinning = false ∧
      stepWith cl s (Event.claim i) =
        { RemainingIterations := (cl s.RemainingIterations).1,
          threads := s.threads.set i (afterClaim w (cl s.RemainingIterations)).2.1,
          granted := s.granted ++ [grantedSize (cl s.RemainingIterations).2] } := by
  cases h : s.threads[i]? with
  | none => left; simp only [stepWith, h]
  | some w =>
      cases hw : w.exited with
      | true => left; simp [stepWith, h, hw]
      | false =>
          cases hws : w.spinning with
          | true => left; simp [stepWith, h, hw, hws]
          | false =>
              right
              refine ⟨w, rfl, hw, hws, ?_⟩
              simp [stepWith, h, hw, hws, afterClaim_counter, afterClaim_granted]

theorem stepWith_threads_length (cl : Int → Int × Option Int) (s : System) (e : Event) :
    (stepWith cl s e).threads.length = s.threads.length := by
  cases e with
  | cancel => rfl
  | claim i =>
      rcases stepWith_claim_cases cl s i with h1 | ⟨w, _, _, _, h1⟩
      · rw [h1]
      · rw [h1]; simp

theorem runWith_threads_length (cl : Int → Int × Option Int) (s : System) (es : List Event) :
    (runWith cl s es).threads.length = s.threads.length := by
  induction es generalizing s with
  | nil => rfl
  | cons e es ih => rw [runWith_cons, ih, stepWith_threads_length]

/-- The thread with index `i` after one event. -/
theorem stepWith_thread (cl : Int → Int × Option Int) (s : System) (e : Event) (i : Nat)
    (w : Worker) (h : s.threads[i]? = some w) :
    (stepWith cl s e).threads[i]? =
      some (if e = Event.claim i ∧ w.exited = false ∧ w.spinning = false
        then (afterClaim w (cl s.RemainingIterations)).2.1 else w) := by
  obtain ⟨hlen, _⟩ := List.getElem?_eq_some.1 h
  cases e with
  | cancel => simp [stepWith, h]
  | claim j =>
      by_cases hj : j = i
      · subst hj
        cases hw : w.exited with
        | true => simp [stepWith, h, hw]
        | false =>
            cases hws : w.spinning with
            | true => simp [stepWith, h, hw, hws]
            | false => simp [stepWith, h, hw, hws, List.getElem?_set_self hlen]
      · have hne : ¬ (Event.claim j = Event.claim i) := by
          intro hc; injection hc with hc; exact hj hc
        cases hv : s.threads[j]? with
        | none => simp [stepWith, hv, h, hne]
        | some v =>
            cases hve : v.exited with
            | true => simp [stepWith, hv, hve, h, hne]
            | false =>
                cases hvs : v.spinning with
                | true => simp [stepWith, hv, hve, hvs, h, hne]
                | false => simp [stepWith, hv, hve, hvs, h, hne, List.getElem?_set_ne hj]

/-- A thread that has exited is frozen. -/
theorem exitedWith_frozen (cl : Int → Int × Option Int) (s : System) (es : List Event)
    (i : Nat) (w : Worker) (h : s.threads[i]? = some w) (hw : w.exited = true) :
    (runWith cl s es).threads[i]? = some w := by
  induction es generalizing s with
  | nil => exact h
  | cons e es ih =>
      rw [runWith_cons]
      apply ih
      rw [stepWith_thread cl s e i w h]
      simp [hw]

/-- A thread that is not scheduled is left as it is. -/
theorem unscheduled_frozen (cl : Int → Int × Option Int) (s : System) (order : List Nat)
    (i : Nat) (w : Worker) (h : s.threads[i]? = some w) (hi : i ∉ order) :
    (runWith cl s (claimsOf order)).threads[i]? = some w := by
  induction order generalizing s with
  | nil => exact h
  | cons j order ih =>
      simp only [claimsOf, List.map_cons, runWith_cons]
      have hj : ¬ (Event.claim j = Event.claim i) := by
        intro hc
        injection hc with hc
        exact hi (by rw [hc]; exact List.mem_cons_self _ _)
      apply ih _ _ (fun hm => hi (List.mem_cons_of_mem _ hm))
      rw [stepWith_thread cl s (Event.claim j) i w h]
      simp [hj]

theorem threadWith_exists (cl : Int → Int × Option Int) (s : System) (es : List Event)
    (i : Nat) (w : Worker) (h : s.threads[i]? = some w) :
    ∃ v, (runWith cl s es).threads[i]? = some v := by
  obtain ⟨hlen, _⟩ := List.getElem?_eq_some.1 h
  have h2 : i < (runWith cl s es).threads.length := by
    rw [runWith_threads_length]; exact hlen
  exact ⟨(runWith cl s es).threads[i], List.getElem?_eq_getElem h2⟩

/-- One event keeps a property of threads that every loop iteration preserves. -/
theorem stepWith_threads_invariant (cl : Int → Int × Option Int) (P : Worker → Prop)
    (hP : ∀ c w, w.exited = false → w.spinning = false → P w → P (afterClaim w c).2.1)
    (s : System) (e : Event) (h0 : ∀ w ∈ s.threads, P w) :
    ∀ w ∈ (stepWith cl s e).threads, P w := by
  cases e with
  | cancel => exact h0
  | claim i =>
      rcases stepWith_claim_cases cl s i with h1 | ⟨w, hw, hwe, hws, h1⟩
      · rw [h1]; exact h0
      · rw [h1]
        intro v hv
        rcases List.mem_or_eq_of_mem_set hv with hv | hv
        · exact h0 v hv
        · subst hv
          exact hP _ w hwe hws (h0 w (List.getElem?_mem hw))

/-- A property of a thread that every loop iteration preserves holds for every
thread throughout every run. -/
theorem threadsWith_invariant (cl : Int → Int × Option Int) (P : Worker → Prop)
    (hP : ∀ c w, w.exited = false → w.spinning = false → P w → P (afterClaim w c).2.1)
    (s : System) (es : List Event) (h0 : ∀ w ∈ s.threads, P w) :
    ∀ w ∈ (runWith cl s es).threads, P w := by
  apply runWith_induction cl (fun t => ∀ w ∈ t.threads, P w) es s h0
  intro t e _ ht
  exact stepWith_threads_invariant cl P hP t e ht

/-- When every thread has exited, events other than the cancellation change
nothing. -/
theorem runWith_all_exited (cl : Int → Int × Option Int) (s : System) (order : List Nat)
    (h : ∀ w ∈ s.threads, w.exited = true) : runWith cl s (claimsOf order) = s := by
  induction order with
  | nil => rfl
  | cons i order ih =>
      simp only [claimsOf, List.map_cons, runWith_cons]
      rcases stepWith_claim_cases cl s i with h1 | ⟨w, hw, hwe, _, _⟩
      · rw [h1]; exact ih
      · rw [h w (List.getElem?_mem hw)] at hwe
        exact absurd hwe (by decide)

/-- Two claim functions that agree on the counter a running thread reads give
the same step. -/
theorem stepWith_congr (c1 c2 : Int → Int × Option Int) (s : System) (e : Event)
    (h : ∀ i w, e = Event.claim i → s.threads[i]? = some w → w.exited = false →
      w.spinning = false → c1 s.RemainingIterations = c2 s.RemainingIterations) :
    stepWith c1 s e = stepWith c2 s e := by
  cases e with
  | cancel => rfl
  | claim i =>
      cases hw : s.threads[i]? with
      | none => simp only [stepWith, hw]
      | some w =>
          cases hwe : w.exited with
          | true => simp [stepWith, hw, hwe]
          | false =>
              cases hws : w.spinning with
              | true => simp [stepWith, hw, hwe, hws]
              | false =>
                  have := h i w rfl hw hwe hws
                  simp [stepWith, hw, hwe, hws, this]

/-! ### The claim read on integers -/

theorem run_nil (b : Int) (s : System) : run b s [] = s := rfl

theorem run_cons (b : Int) (s : System) (e : Event) (es : List Event) :
    run b s (e :: es) = run b (step b s e) es := rfl

theorem run_append (b : Int) (s : System) (es fs : List Event) :
    run b s (es ++ fs) = run b (run b s es) fs :=
  runWith_append (claimBatch b) s es fs

theorem run_induction (b : Int) (P : System → Prop) (es : List Event) (s : System)
    (h0 : P s) (hstep : ∀ t e, e ∈ es → P t → P (step b t e)) : P (run b s es) :=
  runWith_induction (claimBatch b) P es s h0 hstep

theorem step_claim_cases (b : Int) (s : System) (i : Nat) :
    step b s (Event.claim i) = s ∨
    ∃ w, s.threads[i]? = some w ∧ w.exited = false ∧ w.spinning = false ∧
      step b s (Event.claim i) =
        { RemainingIterations := s.RemainingIterations - b,
          threads := s.threads.set i (workerIteration b s.RemainingIterations w).2.1,
          granted := s.granted ++ [grantedSize (claimBatch b s.RemainingIterations).2] } := by
  rcases stepWith_claim_cases (claimBatch b) s i with h | ⟨w, h1, h2, h3, h4⟩
  · exact Or.inl h
  · right
    refine ⟨w, h1, h2, h3, ?_⟩
    rw [claimBatch_fst] at h4
    exact h4

theorem mem_claimsOf (e : Event) (order : List Nat) (h : e ∈ claimsOf order) :
    ∃ i, e = Event.claim i := by
  unfold claimsOf at h
  rw [List.mem_map] at h
  obtain ⟨i, _, hi⟩ := h
  exact ⟨i, hi.symm⟩

theorem step_threads_length (b : Int) (s : System) (e : Event) :
    (step b s e).threads.length = s.threads.length :=
  stepWith_threads_length (claimBatch b) s e

theorem run_threads_length (b : Int) (s : System) (es : List Event) :
    (run b s es).threads.length = s.threads.length :=
  runWith_threads_length (claimBatch b) s es

theorem step_thread (b : Int) (s : System) (e : Event) (i : Nat) (w : Worker)
    (h : s.threads[i]? = some w) :
    (step b s e).threads[i]? =
      some (if e = Event.claim i ∧ w.exited = false ∧ w.spinning = false
        then (workerIteration b s.RemainingIterations w).2.1 else w) :=
  stepWith_thread (claimBatch b) s e i w h

theorem exited_frozen (b : Int) (s : System) (es : List Event) (i : Nat) (w : Worker)
    (h : s.threads[i]? = some w) (hw : w.exited = true) :
    (run b s es).threads[i]? = some w :=
  exitedWith_frozen (claimBatch b) s es i w h hw

theorem thread_exists (b : Int) (s : System) (es : List Event) (i : Nat) (w : Worker)
    (h : s.threads[i]? = some w) : ∃ v, (run b s es).threads[i]? = some v :=
  threadWith_exists (claimBatch b) s es i w h

theorem mem_initial (T : Int) (Roll : Nat → Nat → Nat) (n : Nat) (w : Worker)
    (h : w ∈ (initial T Roll n).threads) : ∃ j, w = Worker.start (Roll j) := by
  simp only [initial, List.mem_map] at h
  obtain ⟨j, _, rfl⟩ := h
  exact ⟨j, rfl⟩

theorem count_cancel_claimsOf (order : List Nat) :
    (claimsOf order).count Event.cancel = 0 := by
  rw [List.count_eq_zero]
  intro h
  obtain ⟨i, hi⟩ := mem_claimsOf _ order h
  exact absurd hi (by simp)

theorem linear_step (b T : Int) (g : List Int) (s : System) (i : Nat)
    (h : Linear b T g s) : Linear b T g (step b s (Event.claim i)) := by
  rcases step_claim_cases b s i with h1 | ⟨w, _, _, _, h1⟩
  · rw [h1]; exact h
  · rw [h1]
    obtain ⟨k, hr, hg⟩ := h
    refine ⟨k + 1, ?_, ?_⟩
    · simp only []
      push_cast
      rw [hr]; ring
    · simp only []
      rw [List.range_succ, List.map_append, ← List.append_assoc, ← hg]
      simp only [List.map_cons, List.map_nil, grantAt, hr]

/-- Without cancellation, after `k` claims the counter has gone down by
`k * b` and the granted sizes are those of `k` successive claims. -/
theorem linear_run (b : Int) (s : System) (order : List Nat) :
    Linear b s.RemainingIterations s.granted (run b s (claimsOf order)) := by
  apply run_induction b (Linear b s.RemainingIterations s.granted)
  · exact ⟨0, by simp, by simp⟩
  · intro t e he ht
    obtain ⟨i, rfl⟩ := mem_claimsOf e order he
    exact linear_step b _ _ t i ht

theorem sum_grantAt (b T : Int) (hT : 0 ≤ T) (hb : 0 < b) (n : Nat) :
    ((List.range n).map (grantAt b T)).sum = min T ((n : Int) * b) := by
  induction n with
  | zero => simp; exact hT
  | succ n ih =>
      rw [List.range_succ, List.map_append, List.sum_append, ih]
      simp only [List.map_cons, List.map_nil, List.sum_cons, List.sum_nil, grantAt,
        grantedSize_claimBatch b _ hb]
      have hx : 0 ≤ (n : Int) * b := by positivity
      have he : ((n + 1 : Nat) : Int) * b = (n : Int) * b + b := by push_cast; ring
      rw [he]
      generalize (n : Int) * b = x at hx
      omega

theorem map_set_same {α β : Type} (f : α → β) (l : List α) (i : Nat) (w v : α)
    (h : l[i]? = some w) (hf : f v = f w) : (l.set i v).map f = l.map f := by
  apply List.ext_getElem?
  intro j
  rw [List.map_set, List.getElem?_set]
  split_ifs with h1 h2
  · subst h1
    rw [List.getElem?_map, h, hf]
    rfl
  · subst h1
    rw [List.length_map] at h2
    rw [List.getElem?_map, List.getElem?_eq_none (by omega)]
    rfl
  · rfl

/-- Once the counter is at or below zero, claims grant nothing and start no
attempt (as long as the counter is not raised). -/
theorem exhausted_run (b : Int) (hb : 0 < b) (s : System) (hs : s.RemainingIterations ≤ 0)
    (order : List Nat) :
    (run b s (claimsOf order)).RemainingIterations ≤ 0 ∧
    (∃ k, k ≤ order.length ∧
      (run b s (claimsOf order)).granted = s.granted ++ List.replicate k 0) ∧
    (run b s (claimsOf order)).threads.map Worker.trials = s.threads.map Worker.trials := by
  induction order generalizing s with
  | nil => exact ⟨hs, ⟨0, le_refl 0, by simp [claimsOf, run_nil]⟩, rfl⟩
  | cons i order ih =>
      simp only [claimsOf, List.map_cons, run_cons]
      rcases step_claim_cases b s i with h1 | ⟨w, hw, _, _, h1⟩
      · rw [h1]
        obtain ⟨h2, ⟨k, hk, h3⟩, h4⟩ := ih s hs
        exact ⟨h2, ⟨k, by simp only [List.length_cons]; omega, h3⟩, h4⟩
      · rw [h1]
        have hg : grantedSize (claimBatch b s.RemainingIterations).2 = 0 := by
          rw [grantedSize_claimBatch b _ hb]; omega
        obtain ⟨h2, ⟨k, hk, h3⟩, h4⟩ := ih
          { RemainingIterations := s.RemainingIterations - b,
            threads := s.threads.set i (workerIteration b s.RemainingIterations w).2.1,
            granted := s.granted ++ [grantedSize (claimBatch b s.RemainingIterations).2] }
          (by simp only []; omega)
        refine ⟨h2, ⟨k + 1, by simp only [List.length_cons]; omega, ?_⟩, ?_⟩
        · simp only [claimsOf] at h3
          rw [h3, hg, List.append_assoc, List.replicate_succ]
          rfl
        · simp only [claimsOf] at h4
          rw [h4]
          exact map_set_same Worker.trials s.threads i w _ hw
            (workerIteration_trials_nonpos b _ w hb hs)

theorem exitedNegative_step (b : Int) (hb : 0 < b) (s : System) (i : Nat)
    (h : ExitedNegative b s) : ExitedNegative b (step b s (Event.claim i)) := by
  rcases step_claim_cases b s i with h1 | ⟨w, _, hw, _, h1⟩
  · rw [h1]; exact h
  · rw [h1]
    rintro ⟨v, hv, hve⟩
    simp only [] at hv ⊢
    rcases List.mem_or_eq_of_mem_set hv with hv | hv
    · have := h ⟨v, hv, hve⟩
      omega
    · subst hv
      have := (workerIteration_exited b s.RemainingIterations w hw).1 hve
      omega

theorem exitedNegative_claimRun (b T : Int) (hb : 0 < b) (Roll : Nat → Nat → Nat) (n : Nat)
    (order : List Nat) : ExitedNegative b (claimRun b T Roll n order) := by
  apply run_induction b (ExitedNegative b)
  · rintro ⟨v, hv, hve⟩
    obtain ⟨j, rfl⟩ := mem_initial T Roll n v hv
    simp [Worker.start] at hve
  · intro t e he ht
    obtain ⟨i, rfl⟩ := mem_claimsOf e order he
    exact exitedNegative_step b hb t i ht

/-! ## How far the counter goes below zero -/

theorem exitedCount_step (b : Int) (s : System) (i : Nat) (w : Worker)
    (hw : s.threads[i]? = some w) (hwe : w.exited = false) :
    exitedCount
      { RemainingIterations := s.RemainingIterations - b,
        threads := s.threads.set i (workerIteration b s.RemainingIterations w).2.1,
        granted := s.granted ++ [grantedSize (claimBatch b s.RemainingIterations).2] } =
      exitedCount s + (if s.RemainingIterations < 0 then 1 else 0) := by
  obtain ⟨hlen, hget⟩ := List.getElem?_eq_some.1 hw
  simp only [exitedCount]
  rw [List.countP_set (fun w => w.exited) s.threads i _ hlen, hget, hwe]
  have hx := workerIteration_exited b s.RemainingIterations w hwe
  by_cases hneg : s.RemainingIterations < 0
  · simp [hx.2 hneg, hneg]
  · have : (workerIteration b s.RemainingIterations w).2.1.exited = false := by
      cases hh : (workerIteration b s.RemainingIterations w).2.1.exited with
      | true => exact absurd (hx.1 hh) hneg
      | false => rfl
    simp [this, hneg]

theorem floor_step (b : Int) (hb : 0 < b) (s : System) (e : Event) (h : Floor b s) :
    Floor b (step b s e) := by
  unfold Floor at h ⊢
  cases e with
  | cancel =>
      simp only [step, stepWith, exitedCount]
      have : 0 ≤ ((s.threads.countP (fun w => w.exited) : Nat) : Int) * b := by positivity
      have h2 : (((s.threads.countP (fun w => w.exited) : Nat) : Int) + 1) * b =
          ((s.threads.countP (fun w => w.exited) : Nat) : Int) * b + b := by ring
      rw [h2]
      omega
  | claim i =>
      rcases step_claim_cases b s i with h1 | ⟨w, hw, hwe, _, h1⟩
      · rw [h1]; exact h
      · rw [h1, exitedCount_step b s i w hw hwe]
        simp only []
        have h0 : 0 ≤ ((exitedCount s : Nat) : Int) * b := by positivity
        by_cases hneg : s.RemainingIterations < 0
        · rw [if_pos hneg]
          have h2 : (((exitedCount s + 1 : Nat) : Int) + 1) * b =
              ((exitedCount s : Nat) : Int) * b + b + b := by push_cast; ring
          have h3 : (((exitedCount s : Nat) : Int) + 1) * b =
              ((exitedCount s : Nat) : Int) * b + b := by ring
          rw [h2]
          rw [h3] at h
          omega
        · rw [if_neg hneg]
          have h3 : (((exitedCount s + 0 : Nat) : Int) + 1) * b =
              ((exitedCount s : Nat) : Int) * b + b := by push_cast; ring
          rw [h3]
          omega

/-- In every run, with or without cancellation, the counter stays above
`-(exited threads + 1) * b`. -/
theorem counter_floor_exited (b T : Int) (hT : 0 ≤ T) (hb : 0 < b) (Roll : Nat → Nat → Nat)
    (n : Nat) (es : List Event) : Floor b (run b (initial T Roll n) es) := by
  apply run_induction b (Floor b)
  · unfold Floor
    have h0 : 0 ≤ ((exitedCount (initial T Roll n) : Nat) : Int) * b := by positivity
    have h3 : (((exitedCount (initial T Roll n) : Nat) : Int) + 1) * b =
        ((exitedCount (initial T Roll n) : Nat) : Int) * b + b := by ring
    rw [h3]
    have h4 : (initial T Roll n).RemainingIterations = T := rfl
    rw [h4]
    omega
  · intro t e _ ht
    exact floor_step b hb t e ht

/-- C10 as amended (overdraw bound): in every run of `n` threads from
`T ≥ 0` with `b > 0` (any order of claims, with or without cancellation) the
counter never drops below `-(n + 1) * b`; and a claim that grants work leaves
the counter at `-(b - 1)` or above. -/
theorem overdraw_floor (b T : Int) (hT : 0 ≤ T) (hb : 0 < b) (Roll : Nat → Nat → Nat)
    (n : Nat) (es : List Event) (r : Int) (w : Worker) :
    -(((n : Int) + 1) * b) ≤ (run b (initial T Roll n) es).RemainingIterations ∧
    (0 < (workerIteration b r w).2.2 → -(b - 1) ≤ (workerIteration b r w).1) := by
  constructor
  · have h := counter_floor_exited b T hT hb Roll n es
    unfold Floor at h
    have hle : exitedCount (run b (initial T Roll n) es) ≤ n := by
      have h1 : exitedCount (run b (initial T Roll n) es) ≤
          (run b (initial T Roll n) es).threads.length := List.countP_le_length _
      rw [run_threads_length] at h1
      simpa [initial] using h1
    have h2 : ((exitedCount (run b (initial T Roll n) es) : Int) + 1) * b ≤
        ((n : Int) + 1) * b := by
      apply mul_le_mul_of_nonneg_right _ (le_of_lt hb)
      have : (exitedCount (run b (initial T Roll n) es) : Int) ≤ n := by exact_mod_cast hle
      omega
    omega
  · rw [workerIteration_granted, workerIteration_counter, grantedSize_claimBatch b r hb]
    omega

/-- Witness (overdraw floor): three threads on an empty counter with batch
size 2 reach the bound `-(3 + 1) * 2`, and no run goes below it. -/
theorem overdraw_floor_witness :
    (0 : Int) ≤ 0 ∧ (0 : Int) < 2 ∧
    (run 2 (initial 0 (fun _ _ => 1) 3) (claimsOf [0, 0, 1, 2])).RemainingIterations = -8 ∧
    -((((3 : Nat) : Int) + 1) * 2) ≤
      (run 2 (initial 0 (fun _ _ => 1) 3) (claimsOf [0, 0, 1, 2])).RemainingIterations :=
  ⟨by decide, by decide, by decide,
   (overdraw_floor 2 0 (by decide) (by decide) (fun _ _ => 1) 3 (claimsOf [0, 0, 1, 2])
      0 (Worker.start (fun _ => 1))).1⟩

/-- Counterexample to C10 as stated: a single thread draining 10 iterations in
batches of 3 leaves the counter at -5, below `-(3 - 1)`. -/
theorem overdraw_counterexample :
    (0 : Int) ≤ 10 ∧ (0 : Int) < 3 ∧
    (run 3 (initial 10 (fun _ _ => 1) 1) (claimsOf [0, 0, 0, 0, 0])).RemainingIterations = -5 ∧
    ¬ (-((3 : Int) - 1) ≤
      (run 3 (initial 10 (fun _ _ => 1) 1) (claimsOf [0, 0, 0, 0, 0])).RemainingIterations) := by
  decide

/-! ## The machine and the integers -/

theorem countP_lt_length {α : Type} (p : α → Bool) (l : List α) (i : Nat) (w : α)
    (h : l[i]? = some w) (hw : p w = false) : l.countP p < l.length := by
  induction l generalizing i with
  | nil => simp at h
  | cons a l ih =>
      rw [List.countP_cons, List.length_cons]
      cases i with
      | zero =>
          simp only [List.getElem?_cons_zero, Option.some.injEq] at h
          subst h
          have := List.countP_le_length p (l := l)
          simp [hw]
          omega
      | succ i =>
          simp only [List.getElem?_cons_succ] at h
          have := ih i h
          split_ifs <;> omega

theorem bounded_step (b : Int) (n : Nat) (m U : Int) (hf : Fits b n m U) (s : System)
    (e : Event) (h : Bounded b n m U s) : Bounded b n m U (step b s e) := by
  obtain ⟨hb, _, hm, hU, _, _⟩ := hf
  obtain ⟨hlen, hlo, hup⟩ := h
  have h0 : 0 ≤ ((exitedCount s : Nat) : Int) * b := by positivity
  have h3 : (((exitedCount s : Nat) : Int) + 1) * b =
      ((exitedCount s : Nat) : Int) * b + b := by ring
  cases e with
  | cancel =>
      refine ⟨hlen, ?_, hU⟩
      have h4 : exitedCount (step b s Event.cancel) = exitedCount s := rfl
      have h5 : (step b s Event.cancel).RemainingIterations = 0 := rfl
      rw [h4, h5, h3]
      omega
  | claim i =>
      rcases step_claim_cases b s i with h1 | ⟨w, hw, hwe, _, h1⟩
      · rw [h1]; exact ⟨hlen, hlo, hup⟩
      · rw [h1]
        refine ⟨by simpa using hlen, ?_, by simp only []; omega⟩
        rw [exitedCount_step b s i w hw hwe]
        simp only []
        rw [h3] at hlo
        by_cases hneg : s.RemainingIterations < 0
        · rw [if_pos hneg]
          have h2 : (((exitedCount s + 1 : Nat) : Int) + 1) * b =
              ((exitedCount s : Nat) : Int) * b + b + b := by push_cast; ring
          rw [h2]
          omega
        · rw [if_neg hneg]
          have h2 : (((exitedCount s + 0 : Nat) : Int) + 1) * b =
              ((exitedCount s : Nat) : Int) * b + b := by push_cast; ring
          rw [h2]
          omega

theorem bounded_run (b : Int) (n : Nat) (m U : Int) (hf : Fits b n m U) (s : System)
    (es : List Event) (h : Bounded b n m U s) : Bounded b n m U (run b s es) :=
  run_induction b (Bounded b n m U) es s h (fun t e _ ht => bounded_step b n m U hf t e ht)

/-- Within the bounds, the claim of a running thread does not wrap. -/
theorem bounded_no_wrap (b : Int) (n : Nat) (m U : Int) (hf : Fits b n m U) (s : System)
    (h : Bounded b n m U s) (i : Nat) (w : Worker) (hw : s.threads[i]? = some w)
    (hwe : w.exited = false) :
    -2 ^ 63 ≤ s.RemainingIterations - b ∧ s.RemainingIterations < 2 ^ 63 := by
  obtain ⟨hb, _, hm, hU, hU2, hfit⟩ := hf
  obtain ⟨hlen, hlo, hup⟩ := h
  have hlt : exitedCount s < n := by
    rw [← hlen]
    exact countP_lt_length (fun w => w.exited) s.threads i w hw hwe
  have h1 : ((exitedCount s : Int) + 1) ≤ (n : Int) := by exact_mod_cast hlt
  have h2 := mul_le_mul_of_nonneg_right h1 (le_of_lt hb)
  have h3 : ((n : Int) + 1) * b = (n : Int) * b + b := by ring
  rw [h3] at hfit
  generalize ((exitedCount s : Int) + 1) * b = x at h2 hlo
  generalize (n : Int) * b = y at h2 hfit
  constructor <;> omega

theorem step64_eq_step (b : Int) (n : Nat) (m U : Int) (hf : Fits b n m U) (s : System)
    (h : Bounded b n m U s) (e : Event) : step64 b s e = step b s e := by
  apply stepWith_congr
  intro i w _ hw hwe _
  obtain ⟨h1, h2⟩ := bounded_no_wrap b n m U hf s h i w hw hwe
  exact claimBatch64_eq_claimBatch b _ hf.1 hf.2.1 h2 h1

/-- Within the bounds the machine and the integers run alike. -/
theorem run64_eq_run (b : Int) (n : Nat) (m U : Int) (hf : Fits b n m U) (s : System)
    (es : List Event) (h : Bounded b n m U s) : run64 b s es = run b s es := by
  induction es generalizing s with
  | nil => rfl
  | cons e es ih =>
      have h1 : run64 b s (e :: es) = run64 b (step64 b s e) es := rfl
      rw [h1, run_cons, step64_eq_step b n m U hf s h e]
      exact ih (step b s e) (bounded_step b n m U hf s e h)

theorem bounded_initial (b T : Int) (hb : 0 < b) (Roll : Nat → Nat → Nat) (n : Nat) :
    Bounded b n (min T 0) (max T 0) (initial T Roll n) := by
  refine ⟨by simp [initial], ?_, ?_⟩
  · have h0 : 0 ≤ ((exitedCount (initial T Roll n) : Nat) : Int) * b := by positivity
    have h3 : (((exitedCount (initial T Roll n) : Nat) : Int) + 1) * b =
        ((exitedCount (initial T Roll n) : Nat) : Int) * b + b := by ring
    have h4 : (initial T Roll n).RemainingIterations = T := rfl
    rw [h3, h4]
    omega
  · have h4 : (initial T Roll n).RemainingIterations = T := rfl
    rw [h4]
    omega

theorem bounded_cancel (b : Int) (hb : 0 < b) (s : System) :
    Bounded b s.threads.length 0 0 (step b s Event.cancel) := by
  refine ⟨rfl, ?_, le_refl 0⟩
  have h0 : 0 ≤ ((exitedCount (step b s Event.cancel) : Nat) : Int) * b := by positivity
  have h3 : (((exitedCount (step b s Event.cancel) : Nat) : Int) + 1) * b =
      ((exitedCount (step b s Event.cancel) : Nat) : Int) * b + b := by ring
  have h4 : (step b s Event.cancel).RemainingIterations = 0 := rfl
  rw [h3, h4]
  omega

theorem fits_of_nonneg (b T : Int) (n : Nat) (hT : 0 ≤ T) (hT2 : T < 2 ^ 63) (hb : 0 < b)
    (hb2 : b < 2 ^ 63) (hfit : ((n : Int) + 1) * b ≤ 2 ^ 63) :
    Fits b n (min T 0) (max T 0) := by
  refine ⟨hb, hb2, by omega, by omega, by omega, ?_⟩
  have : min T 0 = 0 := by omega
  rw [this]
  omega

theorem fits_zero (b : Int) (n : Nat) (hb : 0 < b) (hb2 : b < 2 ^ 63)
    (hfit : ((n : Int) + 1) * b ≤ 2 ^ 63) : Fits b n 0 0 :=
  ⟨hb, hb2, le_refl 0, le_refl 0, by norm_num, by omega⟩

/-- On a counter started at a `LONG64` value `T ≥ 0`, with
`(n + 1) * b ≤ 2^63`, the machine run of `n` threads is the run on integers. -/
theorem claimRun64_eq (b T : Int) (hT : 0 ≤ T) (hT2 : T < 2 ^ 63) (hb : 0 < b)
    (hb2 : b < 2 ^ 63) (Roll : Nat → Nat → Nat) (n : Nat)
    (hfit : ((n : Int) + 1) * b ≤ 2 ^ 63) (es : List Event) :
    run64 b (initial T Roll n) es = run b (initial T Roll n) es :=
  run64_eq_run b n (min T 0) (max T 0) (fits_of_nonneg b T n hT hT2 hb hb2 hfit) _ es
    (bounded_initial b T hb Roll n)

/-- After a cancellation, with `(threads + 1) * b ≤ 2^63`, the machine run is
the run on integers. -/
theorem cancelRun64_eq (b : Int) (hb : 0 < b) (hb2 : b < 2 ^ 63) (s : System)
    (hfit : ((s.threads.length : Int) + 1) * b ≤ 2 ^ 63) (es : List Event) :
    run64 b (step64 b s Event.cancel) es = run b (step b s Event.cancel) es :=
  run64_eq_run b s.threads.length 0 0 (fits_zero b _ hb hb2 hfit) _ es (bounded_cancel b hb s)

/-- In every run from `T ≥ 0` the counter stays between `-(n + 1) * b` and `T`. -/
theorem counter_in_range (b T : Int) (hT : 0 ≤ T) (hb : 0 < b) (Roll : Nat → Nat → Nat)
    (n : Nat) (es : List Event) :
    -(((n : Int) + 1) * b) ≤ (run b (initial T Roll n) es).RemainingIterations ∧
    (run b (initial T Roll n) es).RemainingIterations ≤ T := by
  constructor
  · have h := counter_floor_exited b T hT hb Roll n es
    unfold Floor at h
    have hle : exitedCount (run b (initial T Roll n) es) ≤ n := by
      have h1 : exitedCount (run b (initial T Roll n) es) ≤
          (run b (initial T Roll n) es).threads.length := List.countP_le_length _
      rw [run_threads_length] at h1
      simpa [initial] using h1
    have h2 : ((exitedCount (run b (initial T Roll n) es) : Int) + 1) * b ≤
        ((n : Int) + 1) * b := by
      apply mul_le_mul_of_nonneg_right _ (le_of_lt hb)
      have : (exitedCount (run b (initial T Roll n) es) : Int) ≤ n := by exact_mod_cast hle
      omega
    omega
  · apply run_induction b (fun t => t.RemainingIterations ≤ T)
    · exact le_refl T
    · intro t e _ ht
      cases e with
      | cancel => exact hT
      | claim i =>
          rcases step_claim_cases b t i with h | ⟨w, _, _, _, h⟩
          · rw [h]; exact ht
          · rw [h]; simp only []; omega

/-- With the constants of `main` (`1000 * 1000 * 1000` iterations, batches of
`1000`) and any number of threads a `ULONG` can hold, the machine run is the
run on integers, and every counter value of it, and the value the next claim
would leave, fit in a `LONG64`. -/
theorem program_counter_fits (Roll : Nat → Nat → Nat) (n : Nat) (hn : n < 2 ^ 32)
    (es : List Event) :
    run64 1000 (initial 1000000000 Roll n) es = run 1000 (initial 1000000000 Roll n) es ∧
    -2 ^ 63 ≤ (run64 1000 (initial 1000000000 Roll n) es).RemainingIterations - 1000 ∧
    (run64 1000 (initial 1000000000 Roll n) es).RemainingIterations < 2 ^ 63 := by
  have h3 : (n : Int) < 2 ^ 32 := by exact_mod_cast hn
  have he := claimRun64_eq 1000 1000000000 (by decide) (by decide) (by decide) (by decide)
    Roll n (by omega) es
  obtain ⟨h1, h2⟩ := counter_in_range 1000 1000000000 (by decide) (by decide) Roll n es
  rw [he]
  refine ⟨rfl, ?_, ?_⟩ <;> omega

/-- On the machine, from a `LONG64` value `T ≥ 0` and with a `LONG64` batch
size, the counter never drops below `-(n + 1) * b` either. -/
theorem counter_floor64 (b T : Int) (hT : 0 ≤ T) (hT2 : T < 2 ^ 63) (hb : 0 < b)
    (hb2 : b < 2 ^ 63) (Roll : Nat → Nat → Nat) (n : Nat) (es : List Event) :
    -(((n : Int) + 1) * b) ≤ (run64 b (initial T Roll n) es).RemainingIterations := by
  by_cases hfit : ((n : Int) + 1) * b ≤ 2 ^ 63
  · rw [claimRun64_eq b T hT hT2 hb hb2 Roll n hfit es]
    exact (counter_in_range b T hT hb Roll n es).1
  · have : -2 ^ 63 ≤ (run64 b (initial T Roll n) es).RemainingIterations := by
      apply runWith_induction (claimBatch64 b) (fun t => -2 ^ 63 ≤ t.RemainingIterations)
      · have h4 : (initial T Roll n).RemainingIterations = T := rfl
        rw [h4]; omega
      · intro t e _ ht
        cases e with
        | cancel =>
            have : (stepWith (claimBatch64 b) t Event.cancel).RemainingIterations = 0 := rfl
            rw [this]; norm_num
        | claim i =>
            rcases stepWith_claim_cases (claimBatch64 b) t i with h | ⟨w, _, _, _, h⟩
            · rw [h]; exact ht
            · rw [h, claimBatch64_fst b _ hb hb2]
              exact (wrap64_range _).1
    omega

/-! ## Conservation -/

/-- Conservation with the claim read on integers. -/
theorem conservation_int (b T : Int) (hT : 0 ≤ T) (hb : 0 < b) (Roll : Nat → Nat → Nat)
    (n : Nat) (order : List Nat) :
    (claimRun b T Roll n order).granted.sum =
      min T (((claimRun b T Roll n order).granted.length : Int) * b) ∧
    ((∃ w ∈ (claimRun b T Roll n order).threads, w.exited = true) →
      (claimRun b T Roll n order).granted.sum = T) ∧
    ((claimRun b T Roll n order).granted.sum = T →
      ∀ more : List Nat, ∃ k,
        (run b (claimRun b T Roll n order) (claimsOf more)).granted =
          (claimRun b T Roll n order).granted ++ List.replicate k 0) := by
  obtain ⟨k, hr, hg⟩ := linear_run b (initial T Roll n) order
  have hT0 : (initial T Roll n).RemainingIterations = T := rfl
  have hg0 : (initial T Roll n).granted = [] := rfl
  rw [hT0] at hr hg
  rw [hg0, List.nil_append] at hg
  have hlen : (claimRun b T Roll n order).granted.length = k := by
    unfold claimRun; rw [hg]; simp
  have hsum : (claimRun b T Roll n order).granted.sum =
      min T (((claimRun b T Roll n order).granted.length : Int) * b) := by
    rw [hlen]
    unfold claimRun
    rw [hg]
    exact sum_grantAt b T hT hb _
  refine ⟨hsum, ?_, ?_⟩
  · intro hex
    have hneg := exitedNegative_claimRun b T hb Roll n order hex
    rw [hsum, hlen]
    unfold claimRun at hneg
    rw [hr] at hneg
    omega
  · intro hfull more
    have hle : (claimRun b T Roll n order).RemainingIterations ≤ 0 := by
      rw [hsum, hlen] at hfull
      unfold claimRun
      rw [hr]
      omega
    obtain ⟨_, ⟨k, _, hk⟩, _⟩ := exhausted_run b hb _ hle more
    exact ⟨k, hk⟩

/-- C1 as amended (conservation): on the machine, for `LONG64` values
`0 ≤ T` and `0 < b` and `n` threads with `(n + 1) * b ≤ 2^63` (so that no
claim wraps), whatever the order of the claims (no cancellation), the sizes
granted by the first claims add up to `min T (claims * b)`; once some thread
has claimed until it exited the sum is exactly `T`; and from a state in which
the sum is `T` every further claim grants 0. -/
theorem conservation (b T : Int) (hT : 0 ≤ T) (hT2 : T < 2 ^ 63) (hb : 0 < b)
    (hb2 : b < 2 ^ 63) (Roll : Nat → Nat → Nat) (n : Nat)
    (hfit : ((n : Int) + 1) * b ≤ 2 ^ 63) (order : List Nat) :
    (claimRun64 b T Roll n order).granted.sum =
      min T (((claimRun64 b T Roll n order).granted.length : Int) * b) ∧
    ((∃ w ∈ (claimRun64 b T Roll n order).threads, w.exited = true) →
      (claimRun64 b T Roll n order).granted.sum = T) ∧
    ((claimRun64 b T Roll n order).granted.sum = T →
      ∀ more : List Nat, ∃ k,
        (run64 b (claimRun64 b T Roll n order) (claimsOf more)).granted =
          (claimRun64 b T Roll n order).granted ++ List.replicate k 0) := by
  have he : claimRun64 b T Roll n order = claimRun b T Roll n order :=
    claimRun64_eq b T hT hT2 hb hb2 Roll n hfit (claimsOf order)
  have he2 : ∀ more : List Nat, run64 b (claimRun b T Roll n order) (claimsOf more) =
      run b (claimRun b T Roll n order) (claimsOf more) := by
    intro more
    exact run64_eq_run b n (min T 0) (max T 0) (fits_of_nonneg b T n hT hT2 hb hb2 hfit) _ _
      (bounded_run b n _ _ (fits_of_nonneg b T n hT hT2 hb hb2 hfit) _ _
        (bounded_initial b T hb Roll n))
  rw [he]
  obtain ⟨h1, h2, h3⟩ := conservation_int b T hT hb Roll n order
  refine ⟨h1, h2, ?_⟩
  intro hfull more
  rw [he2 more]
  exact h3 hfull more

/-- Witness (conservation): 12 iterations in batches of 5 claimed by three
threads in turn. -/
theorem conservation_witness :
    (0 : Int) ≤ 12 ∧ (0 : Int) < 5 ∧
    (claimRun64 5 12 (fun _ _ => 1) 3 [0, 1, 2, 0, 1, 2, 0, 1, 2]).granted = [5, 5, 2, 0, 0, 0] ∧
    (claimRun64 5 12 (fun _ _ => 1) 3 [0, 1, 2, 0, 1, 2, 0, 1, 2]).granted.sum = 12 :=
  ⟨by decide, by decide, by decide,
   (conservation 5 12 (by decide) (by decide) (by decide) (by decide) (fun _ _ => 1) 3
      (by decide) [0, 1, 2, 0, 1, 2, 0, 1, 2]).2.1 ⟨_, List.mem_cons_self _ _, by decide⟩⟩

/-- Counterexample to C1 as stated: an empty counter, batch size `2^62`, three
threads claiming in the order 0, 0, 1, 2.  The third claim wraps the `LONG64`
counter to `2^62`, so the fourth claim, made after two threads have exited on
an exhausted counter, is granted `2^62`: the granted sizes add up to `2^62`,
not to `min 0 (4 * 2^62) = 0`. -/
theorem conservation_counterexample :
    (0 : Int) ≤ 0 ∧ (0 : Int) < 2 ^ 62 ∧
    (claimRun64 (2 ^ 62) 0 (fun _ _ => 1) 3 [0, 0, 1, 2]).granted = [0, 0, 0, 2 ^ 62] ∧
    (claimRun64 (2 ^ 62) 0 (fun _ _ => 1) 3 [0, 0, 1]).threads.map Worker.exited =
      [true, true, false] ∧
    (claimRun64 (2 ^ 62) 0 (fun _ _ => 1) 3 [0, 0, 1]).granted.sum = 0 ∧
    ¬ ((claimRun64 (2 ^ 62) 0 (fun _ _ => 1) 3 [0, 0, 1, 2]).granted.sum =
        min 0 (((claimRun64 (2 ^ 62) 0 (fun _ _ => 1) 3 [0, 0, 1, 2]).granted.length : Int)
          * 2 ^ 62)) := by
  decide

/-! ## The value of a claim -/

/-- C2 as amended (claim value): on the machine, for every `LONG64` counter
value `r` (negative ones included) and every `LONG64` batch size `b > 0`, the
size one claim of `CalculationWorker` grants is never negative and never above
the batch size; it is 0 on a negative counter, the counter itself when that
lies in 0..b, and the batch size above that (so `max 0 (min r b)`); the counter
afterwards is `r - b` when that is at least `-2^63`, and `r - b + 2^64` when the
subtraction wraps. -/
theorem claim_value (b r : Int) (w : Worker) (hb : 0 < b) (hb2 : b < 2 ^ 63)
    (hr1 : -2 ^ 63 ≤ r) (hr2 : r < 2 ^ 63) :
    0 ≤ (workerIteration64 b r w).2.2 ∧ (workerIteration64 b r w).2.2 ≤ b ∧
    (r < 0 → (workerIteration64 b r w).2.2 = 0) ∧
    (0 ≤ r → r ≤ b → (workerIteration64 b r w).2.2 = r) ∧
    (b < r → (workerIteration64 b r w).2.2 = b) ∧
    (workerIteration64 b r w).2.2 = max 0 (min r b) ∧
    (-2 ^ 63 ≤ r - b → (workerIteration64 b r w).1 = r - b) ∧
    (r - b < -2 ^ 63 → (workerIteration64 b r w).1 = r - b + 2 ^ 64) ∧
    (workerIteration64 b r w).2.2 = grantedSize (claimBatch64 b r).2 := by
  have hw : (workerIteration64 b r w).2.2 = max 0 (min r b) := by
    rw [workerIteration64, afterClaim_granted, claimBatch64_snd b r hb hb2 hr1 hr2,
      grantedSize_claimBatch b r hb]
  have hc : (workerIteration64 b r w).1 = wrap64 (r - b) := by
    rw [workerIteration64, afterClaim_counter, claimBatch64_fst b r hb hb2]
  rw [hw, hc]
  refine ⟨by omega, by omega, fun h => by omega, fun h1 h2 => by omega,
    fun h => by omega, rfl, fun h => wrap64_id _ h (by omega), ?_, ?_⟩
  · intro h
    unfold wrap64
    omega
  · rw [claimBatch64_snd b r hb hb2 hr1 hr2, grantedSize_claimBatch b r hb]

/-- Witness (claim value): the last batch of a counter holding 2 with batch
size 5. -/
theorem claim_value_witness :
    (0 : Int) < 5 ∧ (workerIteration64 5 2 (Worker.start (fun _ => 1))).2.2 = 2 ∧
    (workerIteration64 5 2 (Worker.start (fun _ => 1))).1 = -3 :=
  ⟨by decide,
   (claim_value 5 2 (Worker.start (fun _ => 1)) (by decide) (by decide) (by decide)
      (by decide)).2.2.2.1 (by decide) (by decide),
   (claim_value 5 2 (Worker.start (fun _ => 1)) (by decide) (by decide) (by decide)
      (by decide)).2.2.2.2.2.2.1 (by decide)⟩

/-- Counterexample to C2 as stated: a claim of batch size 3 on a counter holding
`-2^63 + 1` grants 0 and leaves the counter at `2^63 - 2`, not at
`r - b = -2^63 - 2`: the interlocked add wraps. -/
theorem claim_value_counterexample :
    (0 : Int) < 3 ∧
    (workerIteration64 3 (-2 ^ 63 + 1) (Worker.start (fun _ => 1))).2.2 = 0 ∧
    (workerIteration64 3 (-2 ^ 63 + 1) (Worker.start (fun _ => 1))).1 = 2 ^ 63 - 2 ∧
    ¬ ((workerIteration64 3 (-2 ^ 63 + 1) (Worker.start (fun _ => 1))).1 =
        (-2 ^ 63 + 1) - 3) := by
  decide

/-! ## The last batch -/

theorem grantAt_split (b r : Int) (q : Nat) (hr0 : 0 < r) (hrb : r < b) (j : Nat) :
    grantAt b ((q : Int) * b + r) j = if j < q then b else if j = q then r else 0 := by
  have hb : 0 < b := lt_trans hr0 hrb
  unfold grantAt
  rw [grantedSize_claimBatch b _ hb]
  split_ifs with h1 h2
  · have h3 : (j : Int) + 1 ≤ q := by exact_mod_cast h1
    have h4 : ((j : Int) + 1) * b ≤ (q : Int) * b :=
      mul_le_mul_of_nonneg_right h3 (le_of_lt hb)
    have h5 : ((j : Int) + 1) * b = (j : Int) * b + b := by ring
    rw [h5] at h4
    generalize (j : Int) * b = x at h4
    generalize (q : Int) * b = y at h4
    omega
  · subst h2
    generalize (j : Int) * b = x
    omega
  · have h3 : (q : Int) + 1 ≤ j := by
      have : q < j := by omega
      exact_mod_cast this
    have h4 : ((q : Int) + 1) * b ≤ (j : Int) * b :=
      mul_le_mul_of_nonneg_right h3 (le_of_lt hb)
    have h5 : ((q : Int) + 1) * b = (q : Int) * b + b := by ring
    rw [h5] at h4
    generalize (j : Int) * b = x at h4
    generalize (q : Int) * b = y at h4
    omega

theorem lastBatch_shape (b r : Int) (q n : Nat) :
    (List.range n).map (fun j => if j < q then b else if j = q then r else (0 : Int)) =
      if n ≤ q then List.replicate n b
      else List.replicate q b ++ r :: List.replicate (n - q - 1) 0 := by
  induction n with
  | zero => simp
  | succ n ih =>
      rw [List.range_succ, List.map_append, ih]
      simp only [List.map_cons, List.map_nil]
      by_cases h1 : n + 1 ≤ q
      · have h2 : n ≤ q := by omega
        have h3 : n < q := by omega
        rw [if_pos h1, if_pos h2, if_pos h3, List.replicate_succ']
      · rw [if_neg h1]
        by_cases h2 : n ≤ q
        · have h3 : n = q := by omega
          subst h3
          simp
        · have h3 : ¬ n < q := by omega
          have h4 : ¬ n = q := by omega
          have h5 : n + 1 - q - 1 = (n - q - 1) + 1 := by omega
          rw [if_neg h2, if_neg h3, if_neg h4, h5, List.replicate_succ' (n - q - 1)]
          simp

/-- The last batch with the claim read on integers. -/
theorem last_batch_int (b r : Int) (q : Nat) (hr0 : 0 < r) (hrb : r < b)
    (Roll : Nat → Nat → Nat) (n : Nat) (order : List Nat) :
    ((claimRun b (q * b + r) Roll n order).granted.length ≤ q →
      (claimRun b (q * b + r) Roll n order).granted =
        List.replicate (claimRun b (q * b + r) Roll n order).granted.length b) ∧
    (q < (claimRun b (q * b + r) Roll n order).granted.length →
      (claimRun b (q * b + r) Roll n order).granted =
        List.replicate q b ++
          r :: List.replicate ((claimRun b (q * b + r) Roll n order).granted.length - q - 1) 0 ∧
      (claimRun b (q * b + r) Roll n order).granted.count r = 1 ∧
      (claimRun b (q * b + r) Roll n order).granted.count b = q) ∧
    ((∃ w ∈ (claimRun b (q * b + r) Roll n order).threads, w.exited = true) →
      q + 1 < (claimRun b (q * b + r) Roll n order).granted.length) := by
  have hb : 0 < b := lt_trans hr0 hrb
  obtain ⟨k, hrem, hg⟩ := linear_run b (initial (q * b + r) Roll n) order
  have hT0 : (initial (q * b + r) Roll n).RemainingIterations = q * b + r := rfl
  have hg0 : (initial (q * b + r) Roll n).granted = [] := rfl
  rw [hT0] at hrem hg
  rw [hg0, List.nil_append] at hg
  have hfun : grantAt b ((q : Int) * b + r) =
      fun j => if j < q then b else if j = q then r else (0 : Int) :=
    funext (grantAt_split b r q hr0 hrb)
  rw [hfun, lastBatch_shape] at hg
  have hex := exitedNegative_claimRun b (q * b + r) hb Roll n order
  unfold claimRun at hex ⊢
  generalize run b (initial (q * b + r) Roll n) (claimsOf order) = s at hrem hg hex ⊢
  have hlen : s.granted.length = k := by
    rw [hg]
    split_ifs with h
    · simp
    · simp; omega
  rw [hlen]
  refine ⟨?_, ?_, ?_⟩
  · intro h
    rw [if_pos h] at hg
    exact hg
  · intro h
    rw [if_neg (by omega)] at hg
    refine ⟨hg, ?_, ?_⟩
    · rw [hg]
      have h1 : ¬ b = r := by omega
      have h2 : ¬ (0 : Int) = r := by omega
      simp [List.count_append, List.count_cons, List.count_replicate, h1, h2]
    · rw [hg]
      have h1 : ¬ r = b := by omega
      have h2 : ¬ (0 : Int) = b := by omega
      simp [List.count_append, List.count_cons, List.count_replicate, h1, h2]
  · intro h
    have hneg := hex h
    rw [hrem] at hneg
    by_contra hcon
    have h3 : (k : Int) ≤ (q : Int) + 1 := by
      have : k ≤ q + 1 := by omega
      exact_mod_cast this
    have h4 : (k : Int) * b ≤ ((q : Int) + 1) * b :=
      mul_le_mul_of_nonneg_right h3 (le_of_lt hb)
    have h5 : ((q : Int) + 1) * b = (q : Int) * b + b := by ring
    rw [h5] at h4
    generalize (k : Int) * b = x at h4 hneg
    generalize (q : Int) * b = y at h4 hneg
    omega

/-- C6 as amended (last batch): on the machine, when `T = q * b + r` with
`0 < r < b < 2^63`, `T < 2^63` and `n` threads with `(n + 1) * b ≤ 2^63` (so that no
claim wraps), whatever the order of the claims (no cancellation), the first `q`
claims grant `b`, claim `q + 1` grants `r` and every later claim grants 0; so
once a thread has exited exactly one claim has granted `r` and exactly `q`
claims have granted `b`. -/
theorem last_batch (b r : Int) (q : Nat) (hr0 : 0 < r) (hrb : r < b) (hb2 : b < 2 ^ 63)
    (hT2 : (q : Int) * b + r < 2 ^ 63) (Roll : Nat → Nat → Nat) (n : Nat)
    (hfit : ((n : Int) + 1) * b ≤ 2 ^ 63) (order : List Nat) :
    ((claimRun64 b (q * b + r) Roll n order).granted.length ≤ q →
      (claimRun64 b (q * b + r) Roll n order).granted =
        List.replicate (claimRun64 b (q * b + r) Roll n order).granted.length b) ∧
    (q < (claimRun64 b (q * b + r) Roll n order).granted.length →
      (claimRun64 b (q * b + r) Roll n order).granted =
        List.replicate q b ++
          r :: List.replicate ((claimRun64 b (q * b + r) Roll n order).granted.length - q - 1) 0 ∧
      (claimRun64 b (q * b + r) Roll n order).granted.count r = 1 ∧
      (claimRun64 b (q * b + r) Roll n order).granted.count b = q) ∧
    ((∃ w ∈ (claimRun64 b (q * b + r) Roll n order).threads, w.exited = true) →
      q + 1 < (claimRun64 b (q * b + r) Roll n order).granted.length) := by
  have hb : 0 < b := lt_trans hr0 hrb
  have hq : 0 ≤ (q : Int) * b := by positivity
  have he : claimRun64 b (q * b + r) Roll n order = claimRun b (q * b + r) Roll n order :=
    claimRun64_eq b _ (by omega) hT2 hb hb2 Roll n hfit (claimsOf order)
  rw [he]
  exact last_batch_int b r q hr0 hrb Roll n order

/-- Witness (last batch): 10 iterations in batches of 3 give 3, 3, 3, 1, 0. -/
theorem last_batch_witness :
    (0 : Int) < 1 ∧ (1 : Int) < 3 ∧
    (claimRun64 3 ((3 : Nat) * 3 + 1) (fun _ _ => 1) 1 [0, 0, 0, 0, 0, 0, 0]).granted =
      [3, 3, 3, 1, 0] ∧
    (claimRun64 3 ((3 : Nat) * 3 + 1) (fun _ _ => 1) 1 [0, 0, 0, 0, 0, 0, 0]).granted.count 1
      = 1 :=
  ⟨by decide, by decide, by decide,
   ((last_batch 3 1 3 (by decide) (by decide) (by decide) (by decide) (fun _ _ => 1) 1
      (by decide)
      [0, 0, 0, 0, 0, 0, 0]).2.1 (by decide)).2.1⟩

/-- Counterexample to C6 as stated: `T = 1 = 0 * 2^62 + 1` with batch size
`2^62`, three threads claiming in the order 0, 0, 1, 2.  The first claim grants
the remainder 1, the next two grant 0, the third wraps the `LONG64` counter and
the fourth claim is granted `2^62`: a later claim that does not grant 0, and one
claim granting `b` where `q = 0`. -/
theorem last_batch_counterexample :
    (0 : Int) < 1 ∧ (1 : Int) < 2 ^ 62 ∧
    (claimRun64 (2 ^ 62) ((0 : Nat) * 2 ^ 62 + 1) (fun _ _ => 1) 3 [0, 0, 1, 2]).granted =
      [1, 0, 0, 2 ^ 62] ∧
    ¬ ((claimRun64 (2 ^ 62) ((0 : Nat) * 2 ^ 62 + 1) (fun _ _ => 1) 3 [0, 0, 1, 2]).granted.count
        (2 ^ 62) = 0) := by
  decide

/-! ## Cancellation -/

/-- C3 as amended (cancellation monotonicity): on the machine, whatever the
counter held before the exchange with 0, for a `LONG64` batch size `b > 0` and
`(threads + 1) * b ≤ 2^63` (so that no claim wraps), every claim issued after
the cancellation, by any thread in any order, grants 0 (and starts no
attempt). -/
theorem cancellation_monotone (b : Int) (hb : 0 < b) (hb2 : b < 2 ^ 63) (s : System)
    (hfit : ((s.threads.length : Int) + 1) * b ≤ 2 ^ 63) (order : List Nat) :
    (step64 b s Event.cancel).RemainingIterations = 0 ∧
    (∃ k, k ≤ order.length ∧
      (run64 b (step64 b s Event.cancel) (claimsOf order)).granted =
        s.granted ++ List.replicate k 0) ∧
    (run64 b (step64 b s Event.cancel) (claimsOf order)).threads.map Worker.trials =
      s.threads.map Worker.trials := by
  rw [cancelRun64_eq b hb hb2 s hfit]
  exact ⟨rfl, (exhausted_run b hb (step b s Event.cancel) (le_refl 0) order).2⟩

/-- Witness (cancellation monotone): two threads, 10 iterations left, batch
size 3: after the cancellation the claims grant 0. -/
theorem cancellation_monotone_witness :
    (0 : Int) < 3 ∧
    (run64 3 (step64 3 (initial 10 (fun _ _ => 1) 2) Event.cancel)
      (claimsOf [0, 1, 0, 1, 0, 1])).granted = [0, 0, 0] ∧
    ∃ k, k ≤ 6 ∧ (run64 3 (step64 3 (initial 10 (fun _ _ => 1) 2) Event.cancel)
      (claimsOf [0, 1, 0, 1, 0, 1])).granted = [] ++ List.replicate k 0 :=
  ⟨by decide, by decide,
   (cancellation_monotone 3 (by decide) (by decide) (initial 10 (fun _ _ => 1) 2) (by decide)
      [0, 1, 0, 1, 0, 1]).2.1⟩

/-- Counterexample to C3 as stated: batch size `2^63 - 1`, two threads, the
counter cancelled, then claims in the order 0, 0, 1.  The second claim wraps the
`LONG64` counter to 2, and the third claim, issued after the cancellation, is
granted 2. -/
theorem cancellation_counterexample :
    (0 : Int) < 2 ^ 63 - 1 ∧
    (run64 (2 ^ 63 - 1) (step64 (2 ^ 63 - 1) (initial 10 (fun _ _ => 1) 2) Event.cancel)
      (claimsOf [0, 0, 1])).granted = [0, 0, 2] ∧
    (run64 (2 ^ 63 - 1) (step64 (2 ^ 63 - 1) (initial 10 (fun _ _ => 1) 2) Event.cancel)
      (claimsOf [0, 0, 1])).threads.map (fun w => w.trials.length) = [0, 2] := by
  decide

/-! ## Exit of a thread -/

theorem budget_sub (b r : Int) (hb : 0 < b) (hr : 0 ≤ r) :
    budget b (r - b) + 1 = budget b r := by
  unfold budget
  have h1 : (r - b) / b = r / b - 1 := by
    have := Int.add_mul_ediv_right r (-1) (ne_of_gt hb)
    have h2 : r + -1 * b = r - b := by ring
    rw [h2] at this
    rw [this]; ring
  rw [if_neg (not_lt.2 hr)]
  split_ifs with h
  · have : r / b = 0 := Int.ediv_eq_zero_of_lt hr (by omega)
    rw [this]; rfl
  · have h3 : 0 ≤ (r - b) / b := Int.ediv_nonneg (by omega) (le_of_lt hb)
    rw [h1] at h3 ⊢
    omega

theorem budget_sub_le (b r : Int) (hb : 0 < b) : budget b (r - b) ≤ budget b r := by
  rcases lt_or_le r 0 with h | h
  · unfold budget
    rw [if_pos h, if_pos (by omega)]
  · have := budget_sub b r hb h
    omega

theorem budget_zero (b : Int) : budget b 0 = 1 := by
  simp [budget]

theorem step_counter_claim_self (b : Int) (s : System) (i : Nat) (w : Worker)
    (h : s.threads[i]? = some w) (hw : w.exited = false) (hws : w.spinning = false) :
    (step b s (Event.claim i)).RemainingIterations = s.RemainingIterations - b := by
  simp [step, stepWith, h, hw, hws, afterClaim_counter, claimBatch_fst]

theorem step_counter_claim_le (b : Int) (hb : 0 < b) (s : System) (j : Nat) :
    (step b s (Event.claim j)).RemainingIterations ≤ s.RemainingIterations ∧
    ((step b s (Event.claim j)).RemainingIterations = s.RemainingIterations ∨
     (step b s (Event.claim j)).RemainingIterations = s.RemainingIterations - b) := by
  rcases step_claim_cases b s j with h1 | ⟨w, _, _, _, h1⟩
  · rw [h1]; exact ⟨le_refl _, Or.inl rfl⟩
  · rw [h1]; exact ⟨by simp only []; omega, Or.inr rfl⟩

theorem pot_step (b : Int) (hb : 0 < b) (i : Nat) (s : System) (e : Event) :
    pot b i (step b s e) ≤ pot b i s + (if e = Event.cancel then 1 else 0) := by
  cases h : s.threads[i]? with
  | none =>
      have : (step b s e).threads[i]? = none := by
        rw [List.getElem?_eq_none_iff] at h ⊢
        rw [step_threads_length]; exact h
      simp [pot, h, this]
  | some w =>
      have ht := step_thread b s e i w h
      cases hw : w.exited with
      | true =>
          simp only [hw, Bool.true_eq_false, false_and, and_false, if_false] at ht
          simp [pot, h, ht, hw]
      | false =>
          cases e with
          | cancel =>
              simp only [reduceCtorEq, false_and, if_false] at ht
              have hr : (step b s Event.cancel).RemainingIterations = 0 := rfl
              simp only [pot, h, ht, hw, hr, budget_zero]
              simp
          | claim j =>
              by_cases hj : j = i
              · subst hj
                cases hws : w.spinning with
                | true =>
                    have hsame : step b s (Event.claim j) = s := by
                      simp [step, stepWith, h, hw, hws]
                    rw [hsame]
                    simp
                | false =>
                    simp only [hw, hws, and_self, if_true] at ht
                    have hr := step_counter_claim_self b s j w h hw hws
                    have hc := workerIteration_claims b s.RemainingIterations w
                    have hx := workerIteration_exited b s.RemainingIterations w hw
                    simp only [pot, h, ht, hr, hc, hw]
                    by_cases hneg : s.RemainingIterations < 0
                    · rw [hx.2 hneg]
                      simp
                    · have hf : (workerIteration b s.RemainingIterations w).2.1.exited =
                          false := by
                        cases hh : (workerIteration b s.RemainingIterations w).2.1.exited with
                        | true => exact absurd (hx.1 hh) hneg
                        | false => rfl
                      rw [hf]
                      have := budget_sub b s.RemainingIterations hb (not_lt.1 hneg)
                      simp
                      omega
              · have hne : ¬ (Event.claim j = Event.claim i) := by
                  intro hc; injection hc with hc; exact hj hc
                simp only [hne, false_and, if_false] at ht
                simp only [pot, h, ht, hw]
                have hle := budget_sub_le b s.RemainingIterations hb
                rcases (step_counter_claim_le b hb s j).2 with h2 | h2
                · rw [h2]; simp
                · rw [h2]; simp; omega

theorem pot_run (b : Int) (hb : 0 < b) (i : Nat) (s : System) (es : List Event) :
    pot b i (run b s es) ≤ pot b i s + es.count Event.cancel := by
  induction es generalizing s with
  | nil => simp [run_nil]
  | cons e es ih =>
      rw [run_cons]
      have h1 := ih (step b s e)
      have h2 := pot_step b hb i s e
      rw [List.count_cons]
      by_cases he : e = Event.cancel
      · subst he
        simp only [if_true] at h2
        simp only [beq_self_eq_true, if_true]
        omega
      · simp only [if_neg he] at h2
        have : (e == Event.cancel) = false := by simpa using he
        simp only [this]
        simp only [Bool.false_eq_true, if_false]
        omega

/-- With a batch size the `LONG` counter can count, a thread that does not spin
never starts to. -/
theorem step_thread_not_spinning (b : Int) (hb : 0 < b) (hb32 : b ≤ LONG_MAX) (s : System)
    (e : Event) (i : Nat) (w v : Worker) (h : s.threads[i]? = some w)
    (hws : w.spinning = false) (hv : (step b s e).threads[i]? = some v) :
    v.spinning = false := by
  rw [step_thread b s e i w h] at hv
  injection hv with hv
  rw [← hv]
  split_ifs
  · exact workerIteration_not_spinning b _ w hb hb32 hws
  · exact hws

/-- While thread `i` is running, every `claim i` event is one of its claims. -/
theorem claims_count (b : Int) (hb : 0 < b) (hb32 : b ≤ LONG_MAX) (s : System)
    (es : List Event) (i : Nat) (w v : Worker)
    (h : s.threads[i]? = some w) (hws : w.spinning = false)
    (hv : (run b s es).threads[i]? = some v) (hve : v.exited = false) :
    v.claims = w.claims + es.count (Event.claim i) := by
  induction es generalizing s w with
  | nil =>
      rw [run_nil, h] at hv
      injection hv with hv
      subst hv
      simp
  | cons e es ih =>
      rw [run_cons] at hv
      have hwe : w.exited = false := by
        cases hh : w.exited with
        | false => rfl
        | true =>
            have := exited_frozen b s (e :: es) i w h hh
            rw [run_cons, hv] at this
            injection this with this
            rw [this, hh] at hve
            exact absurd hve (by decide)
      have ht := step_thread b s e i w h
      have hsp := step_thread_not_spinning b hb hb32 s e i w _ h hws ht
      have := ih (step b s e) _ ht hsp hv
      rw [this, List.count_cons]
      by_cases he : e = Event.claim i
      · subst he
        simp [hwe, hws, workerIteration_claims]
        omega
      · have : (e == Event.claim i) = false := by simpa using he
        simp [he, this]

/-- The claims of thread `i` never exceed those it had made, the claims that
can read a value of at least zero, one per cancellation, and the last one. -/
theorem claims_bound (b : Int) (hb : 0 < b) (s : System) (es : List Event) (i : Nat)
    (w v : Worker) (h : s.threads[i]? = some w) (hv : (run b s es).threads[i]? = some v) :
    v.claims ≤ w.claims + budget b s.RemainingIterations + 1 + es.count Event.cancel := by
  have hp := pot_run b hb i s es
  have h1 : v.claims ≤ pot b i (run b s es) := by simp [pot, hv]
  have h2 : pot b i s ≤ w.claims + budget b s.RemainingIterations + 1 := by
    simp only [pot, h]
    split_ifs <;> omega
  omega

/-- Thread `i` has exited once the schedule holds enough of its claims. -/
theorem exits_within (b : Int) (hb : 0 < b) (hb32 : b ≤ LONG_MAX) (s : System)
    (es : List Event) (i : Nat) (w : Worker) (h : s.threads[i]? = some w)
    (hws : w.spinning = false)
    (hcount : budget b s.RemainingIterations + es.count Event.cancel + 1 ≤
      es.count (Event.claim i)) :
    ∃ v, (run b s es).threads[i]? = some v ∧ v.exited = true := by
  obtain ⟨v, hv⟩ := thread_exists b s es i w h
  refine ⟨v, hv, ?_⟩
  cases hve : v.exited with
  | true => rfl
  | false =>
      exfalso
      have hc := claims_count b hb hb32 s es i w v h hws hv hve
      have hp := pot_run b hb i s es
      have h1 : v.claims + 1 ≤ pot b i (run b s es) := by
        simp only [pot, hv, hve]
        simp
      have h2 : pot b i s ≤ w.claims + budget b s.RemainingIterations + 1 := by
        simp only [pot, h]
        split_ifs <;> omega
      omega

theorem workerIteration64_exited (b r : Int) (hb : 0 < b) (hb2 : b < 2 ^ 63)
    (hr1 : -2 ^ 63 ≤ r) (hr2 : r < 2 ^ 63) (w : Worker) (hw : w.exited = false) :
    (workerIteration64 b r w).2.1.exited = true ↔ r < 0 := by
  rw [workerIteration64, afterClaim_exited w _ hw, claimBatch64_snd b r hb hb2 hr1 hr2,
    claimBatch_snd_none_iff]

theorem workerIteration64_granted (b r : Int) (hb : 0 < b) (hb2 : b < 2 ^ 63)
    (hr1 : -2 ^ 63 ≤ r) (hr2 : r < 2 ^ 63) (w : Worker) :
    (workerIteration64 b r w).2.2 = max 0 (min r b) ∧
    grantedSize (claimBatch64 b r).2 = max 0 (min r b) := by
  rw [workerIteration64, afterClaim_granted, claimBatch64_snd b r hb hb2 hr1 hr2,
    grantedSize_claimBatch b r hb]
  exact ⟨rfl, rfl⟩

/-- C9 as amended (exit rule): on the machine, for a `LONG64` counter value `r`
and a batch size `0 < b ≤ LONG_MAX`, a running thread moves to `Exit` (writing
its slot, issuing no further claim) exactly when its claim reads a negative
counter, and then it is granted 0; when it is granted a positive size it runs
that many attempts and stays in the loop; when its claim reads exactly 0 it is
granted 0, runs no attempt and stays in the loop.  After a cancellation (with
`(threads + 1) * b ≤ 2^63`) the first claim of a running thread exits if some
claim was made between the cancellation and it, and does not exit if none was;
in any interleaving the thread has exited after two of its claims that follow
the cancellation. -/
theorem exit_rule (b r : Int) (hb : 0 < b) (hb32 : b ≤ LONG_MAX) (hr1 : -2 ^ 63 ≤ r)
    (hr2 : r < 2 ^ 63) (w : Worker) (hw : w.exited = false) (hws : w.spinning = false)
    (s : System) (i : Nat) (hs : s.threads[i]? = some w)
    (hfit : ((s.threads.length : Int) + 1) * b ≤ 2 ^ 63) :
    ((workerIteration64 b r w).2.1.exited = true ↔ r < 0) ∧
    ((workerIteration64 b r w).2.1.exited = true →
      (workerIteration64 b r w).2.2 = 0 ∧
      (workerIteration64 b r w).2.1.MaxOnesObserved = w.MaxSeenByThread ∧
      (workerIteration64 b r w).2.1.slotWrites = w.slotWrites + 1) ∧
    (0 < (workerIteration64 b r w).2.2 →
      (workerIteration64 b r w).2.1.exited = false ∧
      (workerIteration64 b r w).2.1.spinning = false ∧
      ((workerIteration64 b r w).2.1.trials.length : Int) =
        w.trials.length + (workerIteration64 b r w).2.2) ∧
    (r = 0 →
      (workerIteration64 b r w).2.2 = 0 ∧ (workerIteration64 b r w).2.1.exited = false ∧
      (workerIteration64 b r w).2.1.spinning = false ∧
      (workerIteration64 b r w).2.1.trials = w.trials) ∧
    (∀ pre : List Nat, i ∉ pre →
      ((run64 b (step64 b s Event.cancel) (claimsOf pre)).granted = s.granted →
        ∃ v, (run64 b (step64 b s Event.cancel) (claimsOf (pre ++ [i]))).threads[i]? = some v ∧
          v.exited = false ∧ v.claims = w.claims + 1) ∧
      ((run64 b (step64 b s Event.cancel) (claimsOf pre)).granted ≠ s.granted →
        ∃ v, (run64 b (step64 b s Event.cancel) (claimsOf (pre ++ [i]))).threads[i]? = some v ∧
          v.exited = true ∧ v.claims = w.claims + 1)) ∧
    (∀ order : List Nat, 2 ≤ (claimsOf order).count (Event.claim i) →
      ∃ v, (run64 b (step64 b s Event.cancel) (claimsOf order)).threads[i]? = some v ∧
        v.exited = true ∧ v.claims ≤ w.claims + 2) := by
  have hb2 : b < 2 ^ 63 := by unfold LONG_MAX at hb32; omega
  have hx := workerIteration64_exited b r hb hb2 hr1 hr2 w hw
  obtain ⟨hg, hg2⟩ := workerIteration64_granted b r hb hb2 hr1 hr2 w
  have hnotexit : r ≥ 0 → (workerIteration64 b r w).2.1.exited = false := by
    intro h0
    cases hh : (workerIteration64 b r w).2.1.exited with
    | false => rfl
    | true => exact absurd (hx.1 hh) (by omega)
  have hnospin : (workerIteration64 b r w).2.1.spinning = false := by
    rw [workerIteration64]
    apply afterClaim_not_spinning w _ hws
    rw [hg2]
    omega
  refine ⟨hx, ?_, ?_, ?_, ?_, ?_⟩
  · intro he
    have hr := hx.1 he
    have hnone : (claimBatch64 b r).2 = none := by
      rw [claimBatch64_snd b r hb hb2 hr1 hr2]; exact claimBatch_snd_neg b r hr
    refine ⟨by rw [hg]; omega, ?_, ?_⟩
    · rw [workerIteration64, afterClaim_none w _ hnone]
    · rw [workerIteration64, afterClaim_none w _ hnone]
  · intro hpos
    rw [hg] at hpos
    refine ⟨hnotexit (by omega), hnospin, ?_⟩
    rw [workerIteration64, afterClaim_granted]
    apply afterClaim_trials_length
    · rw [hg2]; omega
    · rw [hg2]; omega
  · intro hr0
    refine ⟨by rw [hg]; omega, hnotexit (by omega), hnospin, ?_⟩
    rw [workerIteration64]
    apply afterClaim_trials_nonpos
    rw [hg2]; omega
  · intro pre hpre
    rw [cancelRun64_eq b hb hb2 s hfit, cancelRun64_eq b hb hb2 s hfit]
    have hs1 : (step b s Event.cancel).threads[i]? = some w := hs
    have hR1 : (step b s Event.cancel).RemainingIterations = 0 := rfl
    have hG1 : (step b s Event.cancel).granted = s.granted := rfl
    obtain ⟨k, hrem, hgr⟩ := linear_run b (step b s Event.cancel) pre
    rw [hR1] at hrem
    rw [hG1] at hgr
    have hthr : (run b (step b s Event.cancel) (claimsOf pre)).threads[i]? = some w :=
      unscheduled_frozen (claimBatch b) _ pre i w hs1 hpre
    have hrun : run b (step b s Event.cancel) (claimsOf (pre ++ [i])) =
        step b (run b (step b s Event.cancel) (claimsOf pre)) (Event.claim i) := by
      rw [claimsOf, List.map_append, run_append]
      rfl
    have ht := step_thread b (run b (step b s Event.cancel) (claimsOf pre)) (Event.claim i) i w
      hthr
    simp only [hw, hws, and_self, if_true] at ht
    rw [hrun, ht]
    have hex := workerIteration_exited b
      (run b (step b s Event.cancel) (claimsOf pre)).RemainingIterations w hw
    have hk : (run b (step b s Event.cancel) (claimsOf pre)).granted = s.granted ↔ k = 0 := by
      rw [hgr]
      constructor
      · intro h
        have := congrArg List.length h
        simp at this
        exact this
      · intro h
        rw [h]; simp
    constructor
    · intro hsame
      have hk0 := hk.1 hsame
      refine ⟨_, rfl, ?_, workerIteration_claims b _ w⟩
      cases hh : (workerIteration b
          (run b (step b s Event.cancel) (claimsOf pre)).RemainingIterations w).2.1.exited with
      | false => rfl
      | true =>
          have := hex.1 hh
          rw [hrem, hk0] at this
          simp at this
    · intro hdiff
      have hk1 : 1 ≤ k := by
        rcases Nat.eq_zero_or_pos k with h | h
        · exact absurd (hk.2 h) hdiff
        · exact h
      refine ⟨_, rfl, ?_, workerIteration_claims b _ w⟩
      apply hex.2
      rw [hrem]
      have h1 : (1 : Int) ≤ k := by exact_mod_cast hk1
      have h2 := mul_le_mul_of_nonneg_right h1 (le_of_lt hb)
      omega
  · intro order hcount
    rw [cancelRun64_eq b hb hb2 s hfit]
    have hs1 : (step b s Event.cancel).threads[i]? = some w := hs
    have hR1 : (step b s Event.cancel).RemainingIterations = 0 := rfl
    obtain ⟨v, hv, hve⟩ := exits_within b hb hb32 (step b s Event.cancel) (claimsOf order) i w
      hs1 hws (by rw [hR1, budget_zero, count_cancel_claimsOf]; omega)
    have hc := claims_bound b hb (step b s Event.cancel) (claimsOf order) i w v hs1 hv
    rw [hR1, budget_zero, count_cancel_claimsOf] at hc
    exact ⟨v, hv, hve, by omega⟩

/-- Witness (exit rule): a running thread whose claim reads -1 exits. -/
theorem exit_rule_witness :
    (0 : Int) < 3 ∧ (Worker.start (fun _ => 1)).exited = false ∧
    (initial 10 (fun _ _ => 1) 1).threads[0]? = some (Worker.start (fun _ => 1)) ∧
    ((workerIteration64 3 (-1) (Worker.start (fun _ => 1))).2.1.exited = true ↔
      (-1 : Int) < 0) :=
  ⟨by decide, rfl, rfl,
   (exit_rule 3 (-1) (by decide) (by decide) (by decide) (by decide)
      (Worker.start (fun _ => 1)) rfl rfl (initial 10 (fun _ _ => 1) 1) 0 rfl (by decide)).1⟩

/-- Counterexample to C9 as stated: a claim that reads 0 is granted size 0 and
the thread does not exit; a thread running when the counter is cancelled (here
after one batch of 3 out of 10) is still in its loop after its very next
claim; and a thread granted `2^31` (batch size `2^31`) neither exits nor
claims again, its batch loop cannot end. -/
theorem exit_rule_counterexample :
    (workerIteration64 3 0 (Worker.start (fun _ => 1))).2.2 = 0 ∧
    (workerIteration64 3 0 (Worker.start (fun _ => 1))).2.1.exited = false ∧
    ¬ ((workerIteration64 3 0 (Worker.start (fun _ => 1))).2.1.exited = true ↔
        (workerIteration64 3 0 (Worker.start (fun _ => 1))).2.2 = 0) ∧
    (run64 3 (initial 10 (fun _ _ => 1) 1)
      [Event.claim 0, Event.cancel, Event.claim 0]).granted = [3, 0] ∧
    (run64 3 (initial 10 (fun _ _ => 1) 1)
      [Event.claim 0, Event.cancel, Event.claim 0]).threads.map Worker.exited = [false] ∧
    (workerIteration64 (2 ^ 31) (2 ^ 31) (Worker.start (fun _ => 1))).2.2 = 2 ^ 31 ∧
    (workerIteration64 (2 ^ 31) (2 ^ 31) (Worker.start (fun _ => 1))).2.1.exited = false ∧
    (workerIteration64 (2 ^ 31) (2 ^ 31) (Worker.start (fun _ => 1))).2.1.spinning = true := by
  decide

/-! ## Aggregation -/

theorem rollLoop_bounds (Roll : Nat → Nat) (n drawn : Nat) (ones : Int) :
    ones ≤ (rollLoop Roll n drawn ones).2 ∧ (rollLoop Roll n drawn ones).2 ≤ ones + n := by
  induction n generalizing drawn ones with
  | zero => simp [rollLoop]
  | succ n ih =>
      rw [rollLoop]
      have := ih (drawn + 1) (if Roll drawn = 1 then ones + 1 else ones)
      push_cast
      split_ifs at this ⊢ <;> omega

theorem trialsMax_runAttempt (w : Worker) (hw : w.exited = false) (h : TrialsMax w) :
    TrialsMax (runAttempt w) := by
  obtain ⟨h1, h2, _⟩ := h
  have hb := rollLoop_bounds w.Roll Rolls w.drawn 0
  simp only [zero_add] at hb
  refine ⟨?_, ?_, ?_⟩
  · intro x hx
    simp only [runAttempt, List.mem_append, List.mem_singleton] at hx ⊢
    simp only [winMax]
    rcases hx with hx | hx
    · obtain ⟨ha, hb2, hc⟩ := h1 x hx
      refine ⟨ha, hb2, ?_⟩
      split_ifs <;> omega
    · subst hx
      refine ⟨hb.1, hb.2, ?_⟩
      split_ifs <;> omega
  · simp only [runAttempt, winMax]
    left
    split_ifs with hgt
    · simp
    · rcases h2 with h2 | ⟨_, h2⟩
      · simp [h2]
      · have : (rollLoop w.Roll Rolls w.drawn 0).2 = w.MaxSeenByThread := by omega
        simp [this]
  · intro he
    simp only [runAttempt] at he
    rw [hw] at he
    exact absurd he (by decide)

theorem trialsMax_batchLoop (n : Nat) (w : Worker) (hw : w.exited = false)
    (h : TrialsMax w) : TrialsMax (batchLoop n w) := by
  induction n generalizing w with
  | zero => exact h
  | succ n ih =>
      rw [batchLoop]
      exact ih (runAttempt w) hw (trialsMax_runAttempt w hw h)

theorem trialsMax_afterClaim (c : Int × Option Int) (w : Worker) (hw : w.exited = false)
    (h : TrialsMax w) : TrialsMax (afterClaim w c).2.1 := by
  cases hc : c.2 with
  | none =>
      rw [afterClaim_none w c hc]
      exact ⟨h.1, h.2.1, fun _ => rfl⟩
  | some g =>
      rw [afterClaim_some w c g hc]
      have h0 : TrialsMax { w with claims := w.claims + 1 } :=
        ⟨h.1, h.2.1, fun he => by rw [hw] at he; exact absurd he (by decide)⟩
      unfold runBatch
      split_ifs
      · exact trialsMax_batchLoop _ _ hw h0
      · exact ⟨h.1, h.2.1, fun he => by
          simp only [] at he; rw [hw] at he; exact absurd he (by decide)⟩

theorem trialsMax_start (Roll : Nat → Nat) : TrialsMax (Worker.start Roll) :=
  ⟨by simp [Worker.start], Or.inr ⟨rfl, rfl⟩, by simp [Worker.start]⟩

/-- The result loop returns an upper bound of the start value and of the slots
it visits, and the value is one of them. -/
theorem aggregateLoop_spec (ThreadParams : List Int) (n ThreadIndex : Nat) (Result : Int) :
    Result ≤ aggregateLoop ThreadParams n ThreadIndex Result ∧
    (∀ j, ThreadIndex ≤ j → j < ThreadIndex + n →
      ThreadParams.getD j 0 ≤ aggregateLoop ThreadParams n ThreadIndex Result) ∧
    (aggregateLoop ThreadParams n ThreadIndex Result = Result ∨
      ∃ j, ThreadIndex ≤ j ∧ j < ThreadIndex + n ∧
        aggregateLoop ThreadParams n ThreadIndex Result = ThreadParams.getD j 0) := by
  induction n generalizing ThreadIndex Result with
  | zero =>
      refine ⟨le_refl _, ?_, Or.inl rfl⟩
      intro j h1 h2
      omega
  | succ n ih =>
      rw [aggregateLoop]
      obtain ⟨h1, h2, h3⟩ := ih (ThreadIndex + 1) (winMax (ThreadParams.getD ThreadIndex 0) Result)
      have hm1 : Result ≤ winMax (ThreadParams.getD ThreadIndex 0) Result := by
        unfold winMax; split_ifs <;> omega
      have hm2 : ThreadParams.getD ThreadIndex 0 ≤
          winMax (ThreadParams.getD ThreadIndex 0) Result := by
        unfold winMax; split_ifs <;> omega
      refine ⟨le_trans hm1 h1, ?_, ?_⟩
      · intro j hj1 hj2
        by_cases hj : j = ThreadIndex
        · subst hj; exact le_trans hm2 h1
        · exact h2 j (by omega) (by omega)
      · rcases h3 with h3 | ⟨j, hj1, hj2, h3⟩
        · rw [h3]
          unfold winMax
          split_ifs
          · right; exact ⟨ThreadIndex, le_refl _, by omega, rfl⟩
          · left; rfl
        · right; exact ⟨j, by omega, by omega, h3⟩

/-- On slots that hold counts, the result loop over all of them returns their
maximum, and 0 when there is no slot. -/
theorem aggregateLoop_max (ThreadParams : List Int) (h0 : ∀ x ∈ ThreadParams, 0 ≤ x) :
    (∀ x ∈ ThreadParams, x ≤ aggregateLoop ThreadParams ThreadParams.length 0 0) ∧
    (aggregateLoop ThreadParams ThreadParams.length 0 0 ∈ ThreadParams ∨
      (ThreadParams = [] ∧ aggregateLoop ThreadParams ThreadParams.length 0 0 = 0)) := by
  obtain ⟨h1, h2, h3⟩ := aggregateLoop_spec ThreadParams ThreadParams.length 0 0
  have hget : ∀ j (hj : j < ThreadParams.length), ThreadParams.getD j 0 = ThreadParams[j] := by
    intro j hj
    simp [List.getD, List.getElem?_eq_getElem hj]
  constructor
  · intro x hx
    obtain ⟨j, hj, rfl⟩ := List.getElem_of_mem hx
    rw [← hget j hj]
    exact h2 j (Nat.zero_le j) (by omega)
  · rcases h3 with h3 | ⟨j, _, hj, h3⟩
    · cases hl : ThreadParams with
      | nil => right; subst hl; exact ⟨rfl, rfl⟩
      | cons a t =>
          left
          have hpos : 0 < ThreadParams.length := by rw [hl]; simp
          have ha := h2 0 (le_refl 0) (by omega)
          rw [hget 0 hpos, h3] at ha
          have ha0 := h0 _ (List.getElem_mem hpos)
          have : ThreadParams[0] = 0 := by omega
          rw [← hl, h3, ← this]
          exact List.getElem_mem hpos
    · left
      rw [h3, hget j (by omega)]
      exact List.getElem_mem (by omega)

/-- In a state whose threads have all exited, every slot is the largest outcome
of its thread and the result loop over the slots returns the largest outcome
of all threads. -/
theorem max_of_slots (s : System) (hinv : ∀ w ∈ s.threads, TrialsMax w)
    (hexit : ∀ w ∈ s.threads, w.exited = true) :
    (∀ w ∈ s.threads,
      (∀ x ∈ w.trials, 0 ≤ x ∧ x ≤ w.MaxOnesObserved) ∧
      (w.MaxOnesObserved ∈ w.trials ∨ (w.trials = [] ∧ w.MaxOnesObserved = 0))) ∧
    (∀ x ∈ s.threads.map Worker.MaxOnesObserved,
      x ≤ aggregateLoop (s.threads.map Worker.MaxOnesObserved) s.threads.length 0 0) ∧
    (aggregateLoop (s.threads.map Worker.MaxOnesObserved) s.threads.length 0 0 ∈
        s.threads.map Worker.MaxOnesObserved ∨
      (s.threads.length = 0 ∧
        aggregateLoop (s.threads.map Worker.MaxOnesObserved) s.threads.length 0 0 = 0)) ∧
    (∀ w ∈ s.threads, ∀ x ∈ w.trials,
      x ≤ aggregateLoop (s.threads.map Worker.MaxOnesObserved) s.threads.length 0 0) ∧
    ((∃ w ∈ s.threads,
        aggregateLoop (s.threads.map Worker.MaxOnesObserved) s.threads.length 0 0 ∈ w.trials) ∨
      ((∀ w ∈ s.threads, w.trials = []) ∧
        aggregateLoop (s.threads.map Worker.MaxOnesObserved) s.threads.length 0 0 = 0)) := by
  have hslot : ∀ w ∈ s.threads,
      (∀ x ∈ w.trials, 0 ≤ x ∧ x ≤ w.MaxOnesObserved) ∧
      (w.MaxOnesObserved ∈ w.trials ∨ (w.trials = [] ∧ w.MaxOnesObserved = 0)) := by
    intro w hw
    obtain ⟨h1, h2, h3⟩ := hinv w hw
    rw [h3 (hexit w hw)]
    exact ⟨fun x hx => ⟨(h1 x hx).1, (h1 x hx).2.2⟩, h2⟩
  have hnonneg : ∀ x ∈ s.threads.map Worker.MaxOnesObserved, 0 ≤ x := by
    intro x hx
    rw [List.mem_map] at hx
    obtain ⟨w, hw, rfl⟩ := hx
    rcases (hslot w hw).2 with h | ⟨_, h⟩
    · exact ((hslot w hw).1 _ h).1
    · omega
  obtain ⟨hub, hatt⟩ := aggregateLoop_max (s.threads.map Worker.MaxOnesObserved) hnonneg
  rw [List.length_map] at hub hatt
  refine ⟨hslot, hub, ?_, ?_, ?_⟩
  · rcases hatt with h | ⟨h1, h2⟩
    · exact Or.inl h
    · right
      refine ⟨?_, h2⟩
      rw [← List.length_map s.threads Worker.MaxOnesObserved, h1]
      rfl
  · intro w hw x hx
    exact le_trans ((hslot w hw).1 x hx).2 (hub _ (List.mem_map_of_mem _ hw))
  · by_cases hne : ∃ w ∈ s.threads, w.trials ≠ []
    · left
      obtain ⟨w, hw, hwne⟩ := hne
      rcases hatt with h | ⟨h1, _⟩
      · rw [List.mem_map] at h
        obtain ⟨v, hv, hve⟩ := h
        rcases (hslot v hv).2 with h2 | ⟨_, h2⟩
        · exact ⟨v, hv, by rw [← hve]; exact h2⟩
        · -- the largest slot is 0, so every outcome is 0
          obtain ⟨x, hx⟩ := List.exists_mem_of_ne_nil _ hwne
          have hx1 := ((hslot w hw).1 x hx)
          have hx2 := hub _ (List.mem_map_of_mem Worker.MaxOnesObserved hw)
          refine ⟨w, hw, ?_⟩
          have : x = aggregateLoop (s.threads.map Worker.MaxOnesObserved) s.threads.length 0 0 := by
            omega
          rw [← this]; exact hx
      · have : s.threads = [] := by simpa using h1
        rw [this] at hw
        exact absurd hw (List.not_mem_nil w)
    · right
      have hall : ∀ w ∈ s.threads, w.trials = [] := by
        intro w hw
        by_contra hc
        exact hne ⟨w, hw, hc⟩
      refine ⟨hall, ?_⟩
      rcases hatt with h | ⟨_, h⟩
      · rw [List.mem_map] at h
        obtain ⟨v, hv, hve⟩ := h
        rcases (hslot v hv).2 with h2 | ⟨_, h2⟩
        · rw [hall v hv] at h2
          exact absurd h2 (List.not_mem_nil _)
        · rw [← hve]; exact h2
      · exact h

/-! ### `main` with its threads -/

theorem run64_invariant (b : Int) (P : Worker → Prop)
    (hP : ∀ c w, w.exited = false → w.spinning = false → P w → P (afterClaim w c).2.1)
    (s : System) (es : List Event) (h0 : ∀ w ∈ s.threads, P w) :
    ∀ w ∈ (run64 b s es).threads, P w :=
  threadsWith_invariant (claimBatch64 b) P hP s es h0

theorem run64_threads_length (b : Int) (s : System) (es : List Event) :
    (run64 b s es).threads.length = s.threads.length :=
  runWith_threads_length (claimBatch64 b) s es

theorem exitedAt_run64 (b : Int) (s : System) (es : List Event) (i : Nat)
    (h : ExitedAt s i) : ExitedAt (run64 b s es) i := by
  obtain ⟨w, hw, hwe⟩ := h
  exact ⟨w, exitedWith_frozen (claimBatch64 b) s es i w hw hwe, hwe⟩

theorem waitOutcome_zero (s : System) (i : Nat) (h : waitOutcome s i = STATUS_WAIT_0) :
    ExitedAt s i := by
  unfold waitOutcome at h
  cases hw : s.threads[i]? with
  | none => rw [hw] at h; exact absurd h (by decide)
  | some w =>
      rw [hw] at h
      simp only [] at h
      cases hwe : w.exited with
      | true => exact ⟨w, hw, hwe⟩
      | false => rw [hwe] at h; exact absurd h (by decide)

theorem waitOutcome_exited (s : System) (i : Nat) (h : ExitedAt s i) :
    waitOutcome s i = STATUS_WAIT_0 := by
  obtain ⟨w, hw, hwe⟩ := h
  simp [waitOutcome, hw, hwe]

theorem waitOutcome_cases (s : System) (i : Nat) :
    waitOutcome s i = STATUS_WAIT_0 ∨ waitOutcome s i = WAIT_TIMEOUT := by
  unfold waitOutcome
  cases s.threads[i]? with
  | none => right; rfl
  | some w =>
      simp only []
      cases w.exited with
      | true => left; rfl
      | false => right; rfl

/-- The thread-start loop keeps a property that holds for a started thread and
that every loop iteration preserves. -/
theorem launchThreads_invariant (b : Int) (CreateThread : Nat → ThreadStart)
    (Roll : Nat → Nat → Nat) (before : Nat → List Nat) (P : Worker → Prop)
    (hP : ∀ c w, w.exited = false → w.spinning = false → P w → P (afterClaim w c).2.1)
    (hstart : ∀ R, P (Worker.start R))
    (m ThreadIndex : Nat) (H : List Bool) (tse : Bool) (Error : Nat) (s : System)
    (h0 : ∀ w ∈ s.threads, P w) :
    ∀ w ∈ (launchThreads b CreateThread Roll before m ThreadIndex H tse Error s).2.threads,
      P w := by
  induction m generalizing ThreadIndex H tse s with
  | zero => exact h0
  | succ m ih =>
      rw [launchThreads]
      have h1 := run64_invariant b P hP s (claimsOf (before ThreadIndex)) h0
      cases CreateThread ThreadIndex with
      | started =>
          simp only []
          apply ih
          intro w hw
          simp only [List.mem_append, List.mem_singleton] at hw
          rcases hw with hw | hw
          · exact h1 w hw
          · rw [hw]; exact hstart _
      | failed e =>
          simp only []
          exact h1

/-- When every `CreateThread` succeeds, the thread-start loop reports no error,
sets the handles of all the indices it visits and leaves that many threads. -/
theorem launchThreads_all_started (b : Int) (CreateThread : Nat → ThreadStart)
    (Roll : Nat → Nat → Nat) (before : Nat → List Nat)
    (m ThreadIndex : Nat) (H : List Bool) (Error : Nat) (s : System)
    (hs : ∀ i, ThreadIndex ≤ i → i < ThreadIndex + m → CreateThread i = ThreadStart.started)
    (hlen : s.threads.length = ThreadIndex) (hHlen : ThreadIndex + m ≤ H.length)
    (hH : ∀ j, H.getD j false = decide (j < ThreadIndex)) :
    (launchThreads b CreateThread Roll before m ThreadIndex H false Error s).1.ThreadStartError
      = false ∧
    (launchThreads b CreateThread Roll before m ThreadIndex H false Error s).1.Error = Error ∧
    (launchThreads b CreateThread Roll before m ThreadIndex H false Error s).1.cancelled
      = false ∧
    (∀ j, (launchThreads b CreateThread Roll before m ThreadIndex H false Error
      s).1.ThreadHandles.getD j false = decide (j < ThreadIndex + m)) ∧
    (launchThreads b CreateThread Roll before m ThreadIndex H false Error s).2.threads.length
      = ThreadIndex + m := by
  induction m generalizing ThreadIndex H s with
  | zero => exact ⟨rfl, rfl, rfl, hH, hlen⟩
  | succ m ih =>
      rw [launchThreads, hs ThreadIndex (le_refl _) (by omega)]
      simp only []
      have := ih (ThreadIndex + 1) (H.set ThreadIndex true)
        { run64 b s (claimsOf (before ThreadIndex)) with
          threads := (run64 b s (claimsOf (before ThreadIndex))).threads ++
            [Worker.start (Roll ThreadIndex)] }
        (fun i h1 h2 => hs i (by omega) (by omega))
        (by
          simp only [List.length_append, List.length_singleton]
          rw [run64_threads_length, hlen])
        (by rw [List.length_set]; omega)
        (by
          intro j
          simp only [List.getD_eq_getElem?_getD, List.getElem?_set]
          have hj := hH j
          simp only [List.getD_eq_getElem?_getD] at hj
          split_ifs with h3 h4
          · subst h3; simp
          · omega
          · rw [hj]
            by_cases h5 : j < ThreadIndex
            · simp [h5]; omega
            · simp [h5]; omega)
      have e1 : ThreadIndex + 1 + m = ThreadIndex + (m + 1) := by omega
      rw [e1] at this
      exact this

theorem pollThreads_invariant (b : Int) (n : Nat) (H : List Bool) (during : Nat → List Nat)
    (P : Worker → Prop)
    (hP : ∀ c w, w.exited = false → w.spinning = false → P w → P (afterClaim w c).2.1)
    (fuel ThreadIndex calls Error : Nat) (s : System) (h0 : ∀ w ∈ s.threads, P w) :
    ∀ w ∈ (pollThreads b n H during fuel ThreadIndex calls Error s).2.1.threads, P w := by
  induction fuel generalizing ThreadIndex calls Error s with
  | zero => exact h0
  | succ fuel ih =>
      rw [pollThreads]
      have h1 := run64_invariant b P hP s (claimsOf (during calls)) h0
      simp only []
      split_ifs
      · exact h0
      · exact ih _ _ _ s h0
      · exact ih _ _ _ _ h1
      · exact ih _ _ _ _ h1
      · exact h1

theorem pollThreads_length (b : Int) (n : Nat) (H : List Bool) (during : Nat → List Nat)
    (fuel ThreadIndex calls Error : Nat) (s : System) :
    (pollThreads b n H during fuel ThreadIndex calls Error s).2.1.threads.length =
      s.threads.length := by
  induction fuel generalizing ThreadIndex calls Error s with
  | zero => rfl
  | succ fuel ih =>
      rw [pollThreads]
      have h1 := run64_threads_length b s (claimsOf (during calls))
      simp only []
      split_ifs
      · rfl
      · exact ih _ _ _ s
      · rw [ih, h1]
      · rw [ih, h1]
      · exact h1

/-- When the wait loop ends, every thread with a handle has exited: the loop
passes an index only on `STATUS_WAIT_0`, which a wait returns only for a thread
that has returned. -/
theorem pollThreads_exited (b : Int) (n : Nat) (H : List Bool) (during : Nat → List Nat)
    (fuel ThreadIndex calls Error : Nat) (s : System) (E : Nat)
    (hidx : ThreadIndex ≤ n)
    (hbefore : ∀ j, j < ThreadIndex → H.getD j false = true → ExitedAt s j)
    (hfin : (pollThreads b n H during fuel ThreadIndex calls Error s).1 = PollEnd.finished E) :
    ∀ j, j < n → H.getD j false = true →
      ExitedAt (pollThreads b n H during fuel ThreadIndex calls Error s).2.1 j := by
  induction fuel generalizing ThreadIndex calls Error s with
  | zero => rw [pollThreads] at hfin; exact absurd hfin (by simp)
  | succ fuel ih =>
      rw [pollThreads] at hfin ⊢
      by_cases h1 : ThreadIndex = n
      · rw [if_pos h1]
        intro j hj hH
        exact hbefore j (by omega) hH
      · rw [if_neg h1] at hfin ⊢
        by_cases h2 : (!(H.getD ThreadIndex false)) = true
        · rw [if_pos h2] at hfin ⊢
          apply ih _ _ _ s (by omega) _ hfin
          intro j hj hH
          by_cases hjt : j = ThreadIndex
          · subst hjt
            rw [hH] at h2
            exact absurd h2 (by decide)
          · exact hbefore j (by omega) hH
        · rw [if_neg h2] at hfin ⊢
          simp only [] at hfin ⊢
          have hfrozen : ∀ j, j < ThreadIndex → H.getD j false = true →
              ExitedAt (run64 b s (claimsOf (during calls))) j :=
            fun j hj hH => exitedAt_run64 b s _ j (hbefore j hj hH)
          by_cases h3 : waitOutcome (run64 b s (claimsOf (during calls))) ThreadIndex =
              STATUS_WAIT_0
          · rw [if_pos h3] at hfin ⊢
            simp only [] at hfin ⊢
            apply ih _ _ _ _ (by omega) _ hfin
            intro j hj hH
            by_cases hjt : j = ThreadIndex
            · subst hjt
              exact waitOutcome_zero _ _ h3
            · exact hfrozen j (by omega) hH
          · rw [if_neg h3] at hfin ⊢
            rcases waitOutcome_cases (run64 b s (claimsOf (during calls))) ThreadIndex with
              h4 | h4
            · exact absurd h4 h3
            · rw [if_pos h4] at hfin ⊢
              simp only [] at hfin ⊢
              exact ih _ _ _ _ hidx hfrozen hfin

/-- When all the threads have exited by the end of the first wait, the wait
loop ends after one iteration per index and one more for the `break`. -/
theorem pollThreads_finishes (b : Int) (n : Nat) (H : List Bool) (during : Nat → List Nat)
    (fuel ThreadIndex calls Error : Nat) (s : System) (hidx : ThreadIndex ≤ n)
    (hlen : s.threads.length = n) (hfuel : n - ThreadIndex + 1 ≤ fuel)
    (hall : ∀ w ∈ (run64 b s (claimsOf (during calls))).threads, w.exited = true) :
    ∃ E, (pollThreads b n H during fuel ThreadIndex calls Error s).1 = PollEnd.finished E := by
  induction fuel generalizing ThreadIndex calls Error s with
  | zero => omega
  | succ fuel ih =>
      rw [pollThreads]
      by_cases h1 : ThreadIndex = n
      · rw [if_pos h1]; exact ⟨Error, rfl⟩
      · rw [if_neg h1]
        by_cases h2 : (!(H.getD ThreadIndex false)) = true
        · rw [if_pos h2]
          exact ih _ _ _ s (by omega) hlen (by omega) hall
        · rw [if_neg h2]
          simp only []
          have hl1 : (run64 b s (claimsOf (during calls))).threads.length = n := by
            rw [run64_threads_length, hlen]
          have hex : ExitedAt (run64 b s (claimsOf (during calls))) ThreadIndex := by
            have hlt : ThreadIndex < (run64 b s (claimsOf (during calls))).threads.length := by
              omega
            exact ⟨_, List.getElem?_eq_getElem hlt, hall _ (List.getElem_mem hlt)⟩
          rw [if_pos (waitOutcome_exited _ _ hex)]
          simp only []
          apply ih _ _ _ _ (by omega) hl1 (by omega)
          rw [show run64 b (run64 b s (claimsOf (during calls))) (claimsOf (during (calls + 1))) =
            run64 b s (claimsOf (during calls)) from runWith_all_exited _ _ _ hall]
          exact hall

/-- C5 (aggregation): in a run of `main` with its threads where the early
checks pass and all `n` threads start, whenever `main` returns every thread has
exited, the slot of every thread holds the largest outcome of the attempts that
thread ran (0 if it ran none; outcomes are counts from 0 up), and the value
`main` reports is the largest slot (0 without slots), hence the largest outcome
over all attempts of all threads; and `main` does return once all the threads
have exited by the end of its first wait. -/
theorem aggregation_correct (env : Environment) (b T : Int) (Roll : Nat → Nat → Nat)
    (before during : Nat → List Nat) (fuel n : Nat)
    (hq : env.processorQuery = (ERROR_SUCCESS, n)) (ht : env.TimeFormatResult = 0)
    (hh : env.handlesAllocated = true) (hp : env.paramsAllocated = true)
    (hstart : ∀ i, i < n → env.CreateThread i = ThreadStart.started) :
    (∀ rep s, program env b T Roll before during fuel = (Outcome.returned rep, s) →
      s.threads.length = n ∧
      (∀ w ∈ s.threads, w.exited = true ∧
        (∀ x ∈ w.trials, 0 ≤ x ∧ x ≤ w.MaxOnesObserved) ∧
        (w.MaxOnesObserved ∈ w.trials ∨ (w.trials = [] ∧ w.MaxOnesObserved = 0))) ∧
      ∃ Result, rep.final = some Result ∧ rep.status = ERROR_SUCCESS ∧
        (∀ x ∈ s.threads.map Worker.MaxOnesObserved, x ≤ Result) ∧
        (Result ∈ s.threads.map Worker.MaxOnesObserved ∨ (n = 0 ∧ Result = 0)) ∧
        (∀ w ∈ s.threads, ∀ x ∈ w.trials, x ≤ Result) ∧
        ((∃ w ∈ s.threads, Result ∈ w.trials) ∨
          ((∀ w ∈ s.threads, w.trials = []) ∧ Result = 0))) ∧
    ((∀ w ∈ (run64 b (launchThreads b env.CreateThread Roll before n 0
          (List.replicate n false) false ERROR_SUCCESS (initial T Roll 0)).2
          (claimsOf (during 0))).threads, w.exited = true) →
      n + 1 ≤ fuel →
      ∃ rep s, program env b T Roll before during fuel = (Outcome.returned rep, s)) := by
  obtain ⟨l1, l2, _, l4, l5⟩ := launchThreads_all_started b env.CreateThread Roll before n 0
    (List.replicate n false) ERROR_SUCCESS (initial T Roll 0)
    (fun i _ h2 => hstart i (by omega)) rfl (by simp)
    (by intro j; simp [List.getD_eq_getElem?_getD, List.getElem?_replicate]; split_ifs <;> simp)
  rw [Nat.zero_add] at l5
  have hinvL := launchThreads_invariant b env.CreateThread Roll before TrialsMax
    (fun c w hwe _ hw => trialsMax_afterClaim c w hwe hw) trialsMax_start n 0
    (List.replicate n false) false ERROR_SUCCESS (initial T Roll 0)
    (fun w hw => by simp [initial] at hw)
  constructor
  · intro rep s hret
    unfold program at hret
    simp only [hq, ht, hh, hp, l1, l2, ne_eq, not_true_eq_false, if_false, Bool.not_true,
      Bool.false_eq_true] at hret
    split at hret
    · exact absurd hret (by simp)
    · exact absurd hret (by simp)
    · rename_i E hfin
      simp only [Prod.mk.injEq, Outcome.returned.injEq] at hret
      obtain ⟨hrep, hs⟩ := hret
      have hlen : s.threads.length = n := by
        rw [← hs, pollThreads_length, l5]
      have hexit : ∀ w ∈ s.threads, w.exited = true := by
        intro w hw
        obtain ⟨j, hj, hjw⟩ := List.getElem_of_mem hw
        rw [hlen] at hj
        have := pollThreads_exited b n _ during fuel 0 0 ERROR_SUCCESS _ E (Nat.zero_le n)
          (fun j hj _ => absurd hj (Nat.not_lt_zero j)) hfin j hj
          (by rw [l4 j]; simp [hj])
        rw [hs] at this
        obtain ⟨v, hv, hve⟩ := this
        rw [List.getElem?_eq_getElem (by omega), hjw] at hv
        injection hv with hv
        rw [hv]; exact hve
      have hinv : ∀ w ∈ s.threads, TrialsMax w := by
        rw [← hs]
        exact pollThreads_invariant b n _ during TrialsMax
          (fun c w hwe _ hw => trialsMax_afterClaim c w hwe hw) fuel 0 0 ERROR_SUCCESS _ hinvL
      obtain ⟨m1, m2, m3, m4, m5⟩ := max_of_slots s hinv hexit
      rw [hlen] at m2 m3 m4 m5
      refine ⟨hlen, fun w hw => ⟨hexit w hw, m1 w hw⟩, _, ?_, ?_, m2, m3, m4, m5⟩
      · rw [← hrep, hs]
      · rw [← hrep]
  · intro hall hfuel
    obtain ⟨E, hE⟩ := pollThreads_finishes b n
      (launchThreads b env.CreateThread Roll before n 0 (List.replicate n false) false
        ERROR_SUCCESS (initial T Roll 0)).1.ThreadHandles during fuel 0 0 ERROR_SUCCESS
      (launchThreads b env.CreateThread Roll before n 0 (List.replicate n false) false
        ERROR_SUCCESS (initial T Roll 0)).2 (Nat.zero_le n) l5 (by omega) hall
    unfold program
    simp only [hq, ht, hh, hp, l1, l2, hE, ne_eq, not_true_eq_false, if_false, Bool.not_true,
      Bool.false_eq_true]
    exact ⟨_, _, rfl⟩

/-- Witness (aggregation correct): two threads share 3 attempts in batches of
2; the first thread rolls a one every time (231 ones per attempt), the second
never; the threads run while `main` waits, the first wait on thread 0 times
out, and `main` reports 231. -/
theorem aggregation_correct_witness :
    (program twoCores 2 3 (fun i _ => if i = 0 then 1 else 2) (fun _ => [])
      (fun c => if c = 0 then [0, 1] else [0, 1, 0, 1]) 6).1 =
      Outcome.returned { status := 0, final := some 231, started := 2, cancelled := false } ∧
    (program twoCores 2 3 (fun i _ => if i = 0 then 1 else 2) (fun _ => [])
      (fun c => if c = 0 then [0, 1] else [0, 1, 0, 1]) 6).2.threads.map Worker.trials =
      [[231, 231], [0]] ∧
    (program twoCores 2 3 (fun i _ => if i = 0 then 1 else 2) (fun _ => [])
      (fun c => if c = 0 then [0, 1] else [0, 1, 0, 1]) 6).2.threads.length = 2 :=
  ⟨by decide, by decide,
   ((aggregation_correct twoCores 2 3 (fun i _ => if i = 0 then 1 else 2) (fun _ => [])
      (fun c => if c = 0 then [0, 1] else [0, 1, 0, 1]) 6 2 rfl rfl rfl rfl
      (fun _ _ => rfl)).1 (Report.mk 0 (some 231) 2 false) _ (Prod.ext (by decide) rfl)).1⟩

/-- A `main` that did not wait would not report the maximum: after the threads
of the run above have made one claim each, thread 0 has seen 231 ones and no
slot has been written yet, so the result loop over the slots gives 0. -/
theorem slots_before_exit :
    (run64 2 (initial 3 (fun i _ => if i = 0 then 1 else 2) 2) (claimsOf [0, 1])).threads.map
      (fun w => (w.exited, w.trials, w.MaxOnesObserved)) =
      [(false, [231, 231], 0), (false, [0], 0)] ∧
    aggregateLoop ((run64 2 (initial 3 (fun i _ => if i = 0 then 1 else 2) 2)
      (claimsOf [0, 1])).threads.map Worker.MaxOnesObserved) 2 0 0 = 0 := by
  decide

/-! ## The status `main` returns -/

theorem launchLoop_first_failure (CreateThread : Nat → ThreadStart) (k e m ThreadIndex : Nat)
    (ThreadHandles : List Bool) (tse : Bool) (Error : Nat)
    (h1 : ThreadIndex ≤ k) (h2 : k < ThreadIndex + m)
    (hlen : ThreadIndex + m ≤ ThreadHandles.length)
    (hH : ∀ j, ThreadHandles.getD j false = decide (j < ThreadIndex))
    (hs : ∀ i, ThreadIndex ≤ i → i < k → CreateThread i = ThreadStart.started)
    (hf : CreateThread k = ThreadStart.failed e) :
    (launchLoop CreateThread m ThreadIndex ThreadHandles tse Error).ThreadStartError = true ∧
    (launchLoop CreateThread m ThreadIndex ThreadHandles tse Error).Error = e ∧
    (launchLoop CreateThread m ThreadIndex ThreadHandles tse Error).cancelled = true ∧
    ∀ j, (launchLoop CreateThread m ThreadIndex ThreadHandles tse Error).ThreadHandles.getD j false
      = decide (j < k) := by
  induction m generalizing ThreadIndex ThreadHandles tse with
  | zero => omega
  | succ m ih =>
      rw [launchLoop]
      by_cases hk : ThreadIndex = k
      · subst hk
        rw [hf]
        refine ⟨rfl, rfl, rfl, ?_⟩
        intro j
        simp only [List.getD_eq_getElem?_getD, List.getElem?_set]
        have hj := hH j
        simp only [List.getD_eq_getElem?_getD] at hj
        split_ifs with h3 h4
        · subst h3; simp
        · omega
        · rw [hj]
      · rw [hs ThreadIndex (le_refl _) (by omega)]
        apply ih (ThreadIndex + 1) _ false (by omega) (by omega)
        · rw [List.length_set]; omega
        · intro j
          simp only [List.getD_eq_getElem?_getD, List.getElem?_set]
          have hj := hH j
          simp only [List.getD_eq_getElem?_getD] at hj
          split_ifs with h3 h4
          · subst h3; simp
          · omega
          · rw [hj]
            by_cases h5 : j < ThreadIndex
            · simp [h5]; omega
            · simp [h5]; omega
        · intro i hi1 hi2
          exact hs i (by omega) hi2

/-- The value the wait loop leaves in `Error` when the handles of the threads
below `k` are set and the others are `NULL`: the value of the last wait, which
is `STATUS_WAIT_0`, as soon as there is a thread to wait for. -/
theorem pollLoop_error (Wait : Nat → Nat) (n k : Nat) (hk : k ≤ n) (ThreadHandles : List Bool)
    (hH : ∀ j, ThreadHandles.getD j false = decide (j < k))
    (fuel ThreadIndex calls Error E : Nat) (hidx : ThreadIndex ≤ n)
    (h : pollLoop Wait n ThreadHandles fuel ThreadIndex calls Error = PollEnd.finished E) :
    (ThreadIndex < k → E = STATUS_WAIT_0) ∧ (k ≤ ThreadIndex → E = Error) := by
  induction fuel generalizing ThreadIndex calls Error with
  | zero => simp [pollLoop] at h
  | succ fuel ih =>
      rw [pollLoop] at h
      by_cases h1 : ThreadIndex = n
      · rw [if_pos h1] at h
        injection h with h
        exact ⟨fun _ => by omega, fun _ => h.symm⟩
      · rw [if_neg h1] at h
        by_cases h2 : ThreadIndex < k
        · have hh : ThreadHandles.getD ThreadIndex false = true := by rw [hH]; simp [h2]
          simp only [hh, Bool.not_true, Bool.false_eq_true, if_false] at h
          split_ifs at h with h3 h4
          · obtain ⟨a, b⟩ := ih _ _ _ (by omega) h
            refine ⟨fun _ => ?_, fun _ => by omega⟩
            by_cases h5 : ThreadIndex + 1 < k
            · exact a h5
            · rw [b (by omega)]; exact h3
          · obtain ⟨a, _⟩ := ih _ _ _ hidx h
            exact ⟨fun h5 => a h5, fun _ => by omega⟩
        · have hh : ThreadHandles.getD ThreadIndex false = false := by rw [hH]; simp [h2]
          simp only [hh, Bool.not_false, if_true] at h
          obtain ⟨_, b⟩ := ih _ _ _ (by omega) h
          exact ⟨fun _ => by omega, fun _ => b (by omega)⟩

/-- What `main` returns when the early checks pass and `CreateThread` fails
first for index `k < n` with last error `e`: no final result; the status is `e`
when no thread was started, and otherwise the value of the last wait
(`STATUS_WAIT_0`), which has replaced `e` in `Error`. -/
theorem main_launch_failure (env : Environment) (fuel n k e : Nat) (ThreadParams : List Int)
    (rep : Report)
    (hq : env.processorQuery = (ERROR_SUCCESS, n)) (ht : env.TimeFormatResult = 0)
    (hh : env.handlesAllocated = true) (hp : env.paramsAllocated = true)
    (hkn : k < n)
    (hs : ∀ i, i < k → env.CreateThread i = ThreadStart.started)
    (hf : env.CreateThread k = ThreadStart.failed e)
    (hret : main env fuel ThreadParams = Outcome.returned rep) :
    rep.final = none ∧ rep.cancelled = true ∧
    (k = 0 → rep.status = e) ∧ (0 < k → rep.status = STATUS_WAIT_0) := by
  obtain ⟨l1, l2, l3, l4⟩ := launchLoop_first_failure env.CreateThread k e n 0
    (List.replicate n false) false ERROR_SUCCESS (Nat.zero_le k) (by omega) (by simp)
    (by intro j; simp [List.getD_eq_getElem?_getD, List.getElem?_replicate]; split_ifs <;> simp)
    (fun i _ hi => hs i hi) hf
  unfold main at hret
  simp only [hq, ht, hh, hp, l1, l2, l3, ne_eq, not_true_eq_false, if_false, Bool.not_true,
    Bool.false_eq_true, if_true] at hret
  split at hret
  · exact absurd hret (by simp)
  · exact absurd hret (by simp)
  · rename_i E hpoll
    obtain ⟨a, b⟩ := pollLoop_error env.WaitForSingleObject n k (le_of_lt hkn) _ l4 fuel 0 0 e E
      (Nat.zero_le n) hpoll
    injection hret with hret
    subst hret
    exact ⟨rfl, rfl, fun h0 => b (by omega), fun h0 => a h0⟩

/-- Witness (main launch failure): with 4 cores and the first failure at
index 0 the status is the launch error. -/
theorem main_launch_failure_witness :
    main (launchFailure 4 0 8) 6 [0, 0, 0, 0] =
      Outcome.returned { status := 8, final := none, started := 0, cancelled := true } ∧
    (Report.mk 8 none 0 true).final = none ∧ (Report.mk 8 none 0 true).cancelled = true :=
  ⟨by decide,
   (main_launch_failure (launchFailure 4 0 8) 6 4 0 8 [0, 0, 0, 0] (Report.mk 8 none 0 true)
      rfl rfl rfl rfl (by decide) (fun _ h => absurd h (by omega)) rfl (by decide)).1,
   (main_launch_failure (launchFailure 4 0 8) 6 4 0 8 [0, 0, 0, 0] (Report.mk 8 none 0 true)
      rfl rfl rfl rfl (by decide) (fun _ h => absurd h (by omega)) rfl (by decide)).2.1⟩

/-- C4 (launch failure, failing input): 4 cores, the second `CreateThread`
(index 1) fails with `ERROR_NOT_ENOUGH_MEMORY`, the wait on thread 0 returns
`STATUS_WAIT_0`.  `main` cancels the work and prints no result, but the status
it returns is `ERROR_SUCCESS`, not the launch error 8: the wait on thread 0 has
overwritten `Error`. -/
theorem launch_failure_status_lost :
    main (launchFailure 4 1 ERROR_NOT_ENOUGH_MEMORY) 6 [0, 0, 0, 0] =
      Outcome.returned { status := ERROR_SUCCESS, final := none, started := 1,
                         cancelled := true } ∧
    ERROR_SUCCESS ≠ ERROR_NOT_ENOUGH_MEMORY := by
  decide

/-- C7 (allocation failure, failing input): 4 cores, the buffer for
`ThreadHandles` is allocated, `malloc` returns `NULL` for `ThreadParams`.  No
thread is started, and the status `main` returns is `ERROR_SUCCESS`: the path
jumps to `Exit` without assigning `Error`. -/
theorem params_allocation_failure_status :
    main (paramsAllocationFailure 4) 6 [] =
      Outcome.returned { status := ERROR_SUCCESS, final := none, started := 0,
                         cancelled := false } := by
  decide

/-- When the buffer for `ThreadParams` is not allocated (and the earlier steps
succeeded), `main` starts no thread and returns `ERROR_SUCCESS`; when the buffer
for `ThreadHandles` is not allocated it returns `ERROR_NOT_ENOUGH_MEMORY`. -/
theorem main_allocation_failure (env : Environment) (fuel : Nat) (ThreadParams : List Int)
    (hq : env.processorQuery.1 = ERROR_SUCCESS) (ht : env.TimeFormatResult = 0) :
    (env.handlesAllocated = false →
      main env fuel ThreadParams = Outcome.returned
        { status := ERROR_NOT_ENOUGH_MEMORY, final := none, started := 0, cancelled := false }) ∧
    (env.handlesAllocated = true → env.paramsAllocated = false →
      main env fuel ThreadParams = Outcome.returned
        { status := ERROR_SUCCESS, final := none, started := 0, cancelled := false }) := by
  constructor
  · intro hh
    simp [main, hq, ht, hh]
  · intro hh hp
    simp [main, hq, ht, hh, hp]

/-- Witness (main allocation failure). -/
theorem main_allocation_failure_witness :
    main (paramsAllocationFailure 4) 0 [] = Outcome.returned
      { status := ERROR_SUCCESS, final := none, started := 0, cancelled := false } :=
  (main_allocation_failure (paramsAllocationFailure 4) 0 [] rfl rfl).2 rfl rfl

/-! ## `main` with its threads is `main` -/

theorem launchThreads_fst (b : Int) (CreateThread : Nat → ThreadStart)
    (Roll : Nat → Nat → Nat) (before : Nat → List Nat) (m ThreadIndex : Nat) (H : List Bool)
    (tse : Bool) (Error : Nat) (s : System) :
    (launchThreads b CreateThread Roll before m ThreadIndex H tse Error s).1 =
      launchLoop CreateThread m ThreadIndex H tse Error := by
  induction m generalizing ThreadIndex H tse s with
  | zero => rfl
  | succ m ih =>
      rw [launchThreads, launchLoop]
      cases CreateThread ThreadIndex with
      | started => exact ih _ _ _ _
      | failed e => rfl

/-- The wait loop of `main`, given the values the waits returned in the run
with the threads, ends as the wait loop run with the threads. -/
theorem pollThreads_pollLoop (b : Int) (n : Nat) (H : List Bool) (during : Nat → List Nat)
    (W : Nat → Nat) (fuel ThreadIndex calls Error : Nat) (s : System)
    (hW : ∀ k, k < (pollThreads b n H during fuel ThreadIndex calls Error s).2.2.length →
      W (calls + k) = (pollThreads b n H during fuel ThreadIndex calls Error s).2.2.getD k 0) :
    pollLoop W n H fuel ThreadIndex calls Error =
      (pollThreads b n H during fuel ThreadIndex calls Error s).1 := by
  induction fuel generalizing ThreadIndex calls Error s with
  | zero => rfl
  | succ fuel ih =>
      rw [pollThreads] at hW ⊢
      rw [pollLoop]
      by_cases h1 : ThreadIndex = n
      · rw [if_pos h1, if_pos h1]
      · rw [if_neg h1] at hW ⊢
        rw [if_neg h1]
        by_cases h2 : (!(H.getD ThreadIndex false)) = true
        · rw [if_pos h2] at hW ⊢
          rw [if_pos h2]
          exact ih _ _ _ s hW
        · rw [if_neg h2] at hW ⊢
          rw [if_neg h2]
          simp only [] at hW ⊢
          have hW0 : W calls = waitOutcome (run64 b s (claimsOf (during calls))) ThreadIndex := by
            have := hW 0
            split_ifs at this <;> simpa using this
          rw [hW0]
          by_cases h3 : waitOutcome (run64 b s (claimsOf (during calls))) ThreadIndex =
              STATUS_WAIT_0
          · rw [if_pos h3] at hW ⊢
            rw [if_pos h3]
            simp only [] at hW ⊢
            apply ih
            intro k hk
            have := hW (k + 1) (by simp; omega)
            have e : calls + 1 + k = calls + (k + 1) := by omega
            rw [e]
            simpa using this
          · rw [if_neg h3] at hW ⊢
            rw [if_neg h3]
            by_cases h4 : waitOutcome (run64 b s (claimsOf (during calls))) ThreadIndex =
                WAIT_TIMEOUT
            · rw [if_pos h4] at hW ⊢
              rw [if_pos h4]
              simp only [] at hW ⊢
              apply ih
              intro k hk
              have := hW (k + 1) (by simp; omega)
              have e : calls + 1 + k = calls + (k + 1) := by omega
              rw [e]
              simpa using this
            · rw [if_neg h4, if_neg h4]

/-- The run of `main` with its threads is a run of `main`: the one in which the
waits return what they returned with the threads and the result loop reads the
slots the threads have left. -/
theorem program_is_main (env : Environment) (b T : Int) (Roll : Nat → Nat → Nat)
    (before during : Nat → List Nat) (fuel : Nat) :
    main { env with WaitForSingleObject := fun c =>
        (programWaits env b T Roll before during fuel).getD c 0 } fuel
      ((program env b T Roll before during fuel).2.threads.map Worker.MaxOnesObserved) =
      (program env b T Roll before during fuel).1 := by
  unfold main program
  simp only []
  by_cases h1 : env.processorQuery.1 ≠ ERROR_SUCCESS
  · rw [if_pos h1, if_pos h1]
  · rw [if_neg h1, if_neg h1]
    by_cases h2 : env.TimeFormatResult ≠ 0
    · rw [if_pos h2, if_pos h2]
    · rw [if_neg h2, if_neg h2]
      by_cases h3 : (!env.handlesAllocated) = true
      · rw [if_pos h3, if_pos h3]
      · rw [if_neg h3, if_neg h3]
        by_cases h4 : (!env.paramsAllocated) = true
        · rw [if_pos h4, if_pos h4]
        · rw [if_neg h4, if_neg h4]
          rw [← launchThreads_fst b env.CreateThread Roll before env.processorQuery.2 0
            (List.replicate env.processorQuery.2 false) false env.processorQuery.1
            (initial T Roll 0)]
          rw [pollThreads_pollLoop b env.processorQuery.2 _ during _ fuel 0 0 _
            (launchThreads b env.CreateThread Roll before env.processorQuery.2 0
              (List.replicate env.processorQuery.2 false) false env.processorQuery.1
              (initial T Roll 0)).2
            (by intro k _; simp only [Nat.zero_add]; rfl)]
          cases hp : (pollThreads b env.processorQuery.2
            (launchThreads b env.CreateThread Roll before env.processorQuery.2 0
              (List.replicate env.processorQuery.2 false) false env.processorQuery.1
              (initial T Roll 0)).1.ThreadHandles during fuel 0 0
            (launchThreads b env.CreateThread Roll before env.processorQuery.2 0
              (List.replicate env.processorQuery.2 false) false env.processorQuery.1
              (initial T Roll 0)).1.Error
            (launchThreads b env.CreateThread Roll before env.processorQuery.2 0
              (List.replicate env.processorQuery.2 false) false env.processorQuery.1
              (initial T Roll 0)).2).1 with
          | waiting => rfl
          | assertFailed => rfl
          | finished E =>
              simp only []
              split_ifs <;> rfl

/-- The launch failure of C4 in the run of `main` with its threads: 4 cores,
the second `CreateThread` fails with `ERROR_NOT_ENOUGH_MEMORY`; thread 0, which
claims only after the cancellation, is granted 0 twice and exits; the wait on it
then returns `STATUS_WAIT_0` and `main` returns `ERROR_SUCCESS`. -/
theorem program_launch_failure_status :
    (program (launchFailure 4 1 ERROR_NOT_ENOUGH_MEMORY) 1000 1000000000 (fun _ _ => 1)
      (fun _ => []) (fun _ => [0, 0]) 6).1 =
      Outcome.returned { status := ERROR_SUCCESS, final := none, started := 1,
                         cancelled := true } ∧
    (program (launchFailure 4 1 ERROR_NOT_ENOUGH_MEMORY) 1000 1000000000 (fun _ _ => 1)
      (fun _ => []) (fun _ => [0, 0]) 6).2.granted = [0, 0] ∧
    (program (launchFailure 4 1 ERROR_NOT_ENOUGH_MEMORY) 1000 1000000000 (fun _ _ => 1)
      (fun _ => []) (fun _ => [0, 0]) 6).2.threads.map Worker.exited = [true] := by
  decide

/-! ## The ranges of the program -/

/-- With a batch size the 32-bit batch counter can count and a thread count a
`ULONG` can hold, no claim on a counter started at `r ≥ -2^32` wraps. -/
theorem fits_of_ulong (b r : Int) (n : Nat) (hb : 0 < b) (hb32 : b ≤ LONG_MAX)
    (hn : n < 2 ^ 32) (hr : -2 ^ 32 ≤ r) :
    -2 ^ 63 ≤ min r 0 - ((n : Int) + 1) * b ∧ ((n : Int) + 1) * b ≤ 2 ^ 63 := by
  unfold LONG_MAX at hb32
  have h1 : (n : Int) + 1 ≤ 2 ^ 32 := by
    have : (n : Int) < 2 ^ 32 := by exact_mod_cast hn
    omega
  have h2 : ((n : Int) + 1) * b ≤ 2 ^ 32 * b := mul_le_mul_of_nonneg_right h1 (le_of_lt hb)
  generalize ((n : Int) + 1) * b = x at h2
  constructor <;> omega

/-- In every state the program reaches, the wrapping claim of the machine and
the claim on integers give the same result. -/
theorem program_claim_exact (Roll : Nat → Nat → Nat) (n : Nat) (hn : n < 2 ^ 32)
    (es : List Event) :
    claimBatch64 1000 (run64 1000 (initial 1000000000 Roll n) es).RemainingIterations =
      claimBatch 1000 (run64 1000 (initial 1000000000 Roll n) es).RemainingIterations := by
  obtain ⟨_, h1, h2⟩ := program_counter_fits Roll n hn es
  exact claimBatch64_eq_claimBatch 1000 _ (by decide) (by decide) h2 h1

end GravelerC
